import Mathlib

/-!
Verification of the maru Go engine (Python sources under `src/deepgo/`)
against its natural-language specification.

The development shallowly embeds the Python code:

* pure helper functions (`gtp.py`, `record.py`, `board.py` helpers) become
  Lean functions over `List Char` / `ℤ` / `ℚ`;
* Python `float` arithmetic is modelled by exact arithmetic (`ℚ`, and `ℝ`
  where the code takes a square root);
* raised exceptions become `Option` / `Except` values;
* the native board module (`deepgo.native`, not part of the Python sources)
  is modelled from the specification as an abstract `BoardModel` parameter:
  a stone configuration type with a play function, a stone-pattern
  fingerprint, and the oriented colour/territory/legality grids that
  `player.py` reads from it.

Python strings are modelled as `List Char`; `str.lower`/`str.upper` are
modelled on the ASCII range (the only range the engine emits).
-/

/-! ## Configuration constants (config.py) -/

/-- Board coordinates; components may be negative for sentinels. -/
abbrev GoPos := ℤ × ℤ

/-- config.py `PASS = (-1, -1)`. -/
def PASS : GoPos := (-1, -1)

/-- config.py `BLACK = 1`. -/
def BLACK : ℤ := 1

/-- config.py `WHITE = -1`. -/
def WHITE : ℤ := -1

/-- config.py `EMPTY = 0`. -/
def goEMPTY : ℤ := 0

/-- config.py `RULE_CH = 0`. -/
def RULE_CH : ℕ := 0

/-- config.py `RULE_JP = 1`. -/
def RULE_JP : ℕ := 1

/-- config.py `RULE_COM = 2`. -/
def RULE_COM : ℕ := 2

/-- config.py `DEFAULT_SIZE = 19`. -/
def DEFAULT_SIZE : ℕ := 19

/-- board.py `is_valid_position`: `0 <= pos[0] < width and 0 <= pos[1] < height`. -/
def is_valid_position (pos : GoPos) (width height : ℤ) : Bool :=
  0 ≤ pos.1 && pos.1 < width && 0 ≤ pos.2 && pos.2 < height

/-! ## ASCII character helpers

Python `str.lower` / `str.upper` / regex `\d`, modelled on the ASCII range
through `Char.toNat` arithmetic. -/

/-- Lower-cases one ASCII character (Python `str.lower` on ASCII). -/
def charLower (c : Char) : Char :=
  if 65 ≤ c.toNat ∧ c.toNat ≤ 90 then Char.ofNat (c.toNat + 32) else c

/-- Upper-cases one ASCII character (Python `str.upper` on ASCII). -/
def charUpper (c : Char) : Char :=
  if 97 ≤ c.toNat ∧ c.toNat ≤ 122 then Char.ofNat (c.toNat - 32) else c

/-- Lower-cases a string (Python `s.lower()`). -/
def strLower (s : List Char) : List Char := s.map charLower

/-- Upper-cases a string (Python `s.upper()`). -/
def strUpper (s : List Char) : List Char := s.map charUpper

/-- Matches regex `\d` (an ASCII decimal digit). -/
def isDigitChar (c : Char) : Bool := 48 ≤ c.toNat && c.toNat ≤ 57

/-- Matches regex `[a-tA-T]`, the first character of a GTP vertex. -/
def isGtpColChar (c : Char) : Bool :=
  (97 ≤ c.toNat && c.toNat ≤ 116) || (65 ≤ c.toNat && c.toNat ≤ 84)

/-- Character of a single decimal digit (`chr(48 + d)`). -/
def digitChar (d : ℕ) : Char := Char.ofNat (48 + d)

/-- Decimal digits of `n`, most significant first, with explicit fuel so the
definition is structural (the fuel `n + 1` always suffices, see
`natToChars`). -/
def natToCharsAux : ℕ → ℕ → List Char
  | 0, _ => []
  | fuel + 1, n =>
    if n < 10 then [digitChar n]
    else natToCharsAux fuel (n / 10) ++ [digitChar (n % 10)]

/-- Python `str(n)` for a natural number `n`. -/
def natToChars (n : ℕ) : List Char := natToCharsAux (n + 1) n

/-- Python `str(n)` for an integer `n`. -/
def intToChars (n : ℤ) : List Char :=
  if n < 0 then '-' :: natToChars (-n).toNat else natToChars n.toNat

/-- Folds decimal digits into a number (the value of `int(s)` given that `s`
consists of digits). -/
def parseDigitsAux : List Char → ℕ → ℕ
  | [], acc => acc
  | c :: cs, acc => parseDigitsAux cs (10 * acc + (c.toNat - 48))

/-- Python `int(s)` on an optionally signed all-digit string; `none` models
the raised `ValueError`. -/
def parseIntChars (s : List Char) : Option ℤ :=
  match s with
  | [] => none
  | c :: rest =>
    if c = '-' then
      if rest ≠ [] ∧ rest.all isDigitChar then some (-(parseDigitsAux rest 0 : ℤ)) else none
    else if c = '+' then
      if rest ≠ [] ∧ rest.all isDigitChar then some (parseDigitsAux rest 0 : ℤ) else none
    else
      if (c :: rest).all isDigitChar then some (parseDigitsAux (c :: rest) 0 : ℤ) else none

/-! ## GTP vertex encoding (gtp.py) -/

/-- gtp.py `gtp_string_to_position`. The result `some PASS` encodes a pass,
`none` (inside `Except.ok`) encodes resignation, and `Except.error` models
the raised `GoException`. -/
def gtp_string_to_position (s : List Char) (width height : ℤ) :
    Except Unit (Option GoPos) :=
  if strLower s = "pass".toList then Except.ok (some PASS)
  else if strLower s = "resign".toList then Except.ok none
  else
    match s with
    | [] => Except.error ()
    | c :: rest =>
      if isGtpColChar c ∧ rest ≠ [] ∧ rest.all isDigitChar then
        let x0 : ℤ := ((charUpper c).toNat : ℤ) - 65
        let x : ℤ := if x0 > 8 then x0 - 1 else x0
        let y : ℤ := height - (parseDigitsAux rest 0 : ℤ)
        if is_valid_position (x, y) width height then Except.ok (some (x, y))
        else Except.error ()
      else Except.error ()

/-- gtp.py `gtp_position_to_string`: `none` is resignation, invalid
coordinates (in particular `PASS`) print as `"PASS"`. -/
def gtp_position_to_string (p : Option GoPos) (width height : ℤ) : List Char :=
  match p with
  | none => "resign".toList
  | some (x, y) =>
    if ¬ is_valid_position (x, y) width height then "PASS".toList
    else
      let x' : ℤ := if x ≥ 8 then x + 1 else x
      Char.ofNat (65 + x').toNat :: natToChars (height - y).toNat

/-! ## Candidate moves (player.py) -/

/-- player.py `Candidate.__init__` data (numeric values as exact rationals
standing for Python floats). -/
structure Candidate where
  pos : GoPos
  color : ℤ
  visits : ℕ
  playouts : ℕ
  policy : ℚ
  value : ℚ
  variations : List GoPos
deriving DecidableEq

/-- player.py: `self.win_chance = value * color * 0.5 + 0.5`. -/
def Candidate.win_chance (c : Candidate) : ℚ :=
  c.value * (c.color : ℚ) * 0.5 + 0.5

/-- player.py: `self.win_chance_lcb = self.win_chance - 1.96 * 0.25 / (visits + 1)**0.5`. -/
noncomputable def Candidate.win_chance_lcb (c : Candidate) : ℝ :=
  (c.win_chance : ℝ) - 1.96 * 0.25 / Real.sqrt ((c.visits : ℝ) + 1)

/-- Python `int(x)` applied to a float: truncation toward zero. -/
noncomputable def pyInt (x : ℝ) : ℤ :=
  if 0 ≤ x then ⌊x⌋ else -⌊-x⌋

/-- gtp.py `lz_candidate_to_string`: the integer printed after `winrate`,
`int(candidate.win_chance * 10000)`. -/
noncomputable def lzWinrateField (c : Candidate) : ℤ :=
  pyInt ((c.win_chance : ℝ) * 10000)

/-- gtp.py `lz_candidate_to_string`: the integer printed after `lcb`,
`int(candidate.win_chance_lcb * 10000)`. -/
noncomputable def lzLcbField (c : Candidate) : ℤ :=
  pyInt (c.win_chance_lcb * 10000)

/-- gtp.py `lz_candidate_to_string`: the integer printed after `prior`,
`int(candidate.policy * 10000)`. -/
noncomputable def lzPriorField (c : Candidate) : ℤ :=
  pyInt ((c.policy : ℝ) * 10000)

/-! ## Resignation and time budgeting (gtp.py) -/

/-- gtp.py `GTPEngine._get_move`, the resignation tail reached when the
Japanese auto-pass branch does not divert: `none` models resignation
(`return None`), otherwise the candidate's own position is returned. -/
def getMoveResign (turn resign_turn : ℕ) (score resign_score : ℚ)
    (win_chance resign_threshold : ℚ) (pos : GoPos) : Option GoPos :=
  if turn < resign_turn then some pos
  else if |score| < resign_score then some pos
  else if win_chance < resign_threshold then none
  else some pos

/-- gtp.py `GTPEngine._get_timelimit` (`remain_times[0]` is Black's clock,
`remain_times[1]` White's; floats as exact rationals). -/
def getTimelimit (timelimit : ℚ) (remainBlack remainWhite : ℚ) (color : ℤ) : ℚ :=
  let remain_time := if color = BLACK then remainBlack else remainWhite
  if remain_time < 0 then timelimit
  else max (min timelimit ((remain_time - 20) * 0.02)) 0

/-! ## Stable sorting (Python `sorted` / `list.sort`) -/

/-- Inserts an element into a `le`-sorted list, after all elements it does
not precede (stable-insertion step). -/
def insertLe {α : Type} (le : α → α → Bool) (a : α) : List α → List α
  | [] => [a]
  | b :: bs => if le a b then a :: b :: bs else b :: insertLe le a bs

/-- Stable insertion sort, modelling Python's stable `sorted`/`list.sort`. -/
def sortLe {α : Type} (le : α → α → Bool) : List α → List α
  | [] => []
  | a :: as => insertLe le a (sortLe le as)

/-- Code-point lexicographic order on strings (Python string comparison). -/
def charListLe : List Char → List Char → Bool
  | [], _ => true
  | _ :: _, [] => false
  | a :: as, b :: bs =>
    if a.toNat < b.toNat then true
    else if b.toNat < a.toNat then false
    else charListLe as bs

/-! ## GTP command registry (gtp.py, C6) -/

/-- Tests whether `p` is a prefix of `s` (Python `str.startswith`). -/
def listStartsWith : List Char → List Char → Bool
  | _, [] => true
  | [], _ :: _ => false
  | c :: cs, p :: ps => decide (c = p) && listStartsWith cs ps

/-- gtp.py: the suffixes of the `_perform_command_*` methods defined on
`GTPEngine` (what `dir(self)` + the `startswith` filter yields, and what
`hasattr(self, '_perform_command_' + c)` tests against). -/
def commandMethodNames : List (List Char) :=
  ["protocol_version".toList, "name".toList, "version".toList,
   "known_command".toList, "list_commands".toList, "boardsize".toList,
   "clear_board".toList, "komi".toList, "fixed_handicap".toList,
   "play".toList, "undo".toList, "genmove".toList, "reg_genmove".toList,
   "lz_genmove_analyze".toList, "lz_analyze".toList,
   "kata_genmove_analyze".toList, "kata_analyze".toList,
   "cgos_genmove_analyze".toList, "cgos_analyze".toList,
   "showboard".toList, "time_settings".toList, "time_left".toList,
   "final_status_list".toList, "final_score".toList,
   "gogui_analyze_commands".toList, "gogui_analyze_territory".toList,
   "gogui_analyze_values".toList, "gogui_analyze_value".toList]

/-- gtp.py `_perform_command_list_commands` display transformation: a
leading `lz_` / `kata_` / `cgos_` of a method suffix is shown dashed. -/
def commandDisplayName (v : List Char) : List Char :=
  if listStartsWith v "lz_".toList then "lz-".toList ++ v.drop 3
  else if listStartsWith v "kata_".toList then "kata-".toList ++ v.drop 5
  else if listStartsWith v "cgos_".toList then "cgos-".toList ++ v.drop 5
  else v

/-- gtp.py `_perform_command_list_commands`: the listed command names
(sorted; the response joins them with newlines). -/
def listCommandsNames : List (List Char) :=
  sortLe charListLe ((commandMethodNames.map commandDisplayName) ++ ["quit".toList])

/-- gtp.py `_perform_command_known_command` response message for a command
name `c`: `hasattr(self, '_perform_command_' + c.lower())`. -/
def knownCommandMessage (c : List Char) : List Char :=
  if strLower c ∈ commandMethodNames then "true".toList else "false".toList

/-! ## Abstract native board and the Player (player.py, C1 and C10)

`deepgo.native` is not part of the Python sources; following the spec's
board-module interface it is modelled as an abstract structure of the
operations player.py uses. Stone arrangement, capture counting, pattern
fingerprints and the oriented grids are opaque parameters; pass moves
(invalid positions) leave the stones unchanged and only flip the side to
move, which is the only board fact the claims rely on. -/

structure BoardModel where
  width : ℤ
  height : ℤ
  /-- stone-configuration type -/
  Conf : Type
  /-- configuration of the empty starting board -/
  initConf : Conf
  /-- configuration after `color` plays at the valid position `pos` -/
  playStone : Conf → GoPos → ℤ → Conf
  /-- captured count reported by `play` (negative if illegal) -/
  capturedOf : Conf → GoPos → ℤ → ℤ
  /-- `get_patterns()`: stable fingerprint of the stone arrangement -/
  patterns : Conf → List ℤ
  /-- `get_colors(color)` oriented stone grid, read at a position -/
  colorsAt : Conf → ℤ → GoPos → ℤ
  /-- `get_territories(color)` oriented settled-territory grid -/
  terrAt : Conf → ℤ → GoPos → ℤ
  /-- `get_enableds(color)` legal-move mask -/
  enabledAt : Conf → ℤ → GoPos → Bool

/-- Native board state: side to move plus stone configuration. -/
structure BState (M : BoardModel) where
  toMove : ℤ
  stones : M.Conf

/-- NativePlayer.play, modelled from the spec: playing at a valid position
updates the stones when legal; a pass (invalid position) changes no stones;
the side to move always flips. Returns the captured count (`0` for pass). -/
def nativePlay {M : BoardModel} (b : BState M) (pos : GoPos) : BState M × ℤ :=
  if is_valid_position pos M.width M.height then
    let captured := M.capturedOf b.stones pos b.toMove
    (⟨-b.toMove, if 0 ≤ captured then M.playStone b.stones pos b.toMove else b.stones⟩,
     captured)
  else
    (⟨-b.toMove, b.stones⟩, 0)

/-- player.py `Player` state: the native board plus the Python-side
bookkeeping fields (`moves0`/`captureds0` are index 0 of the Python lists). -/
structure PState (M : BoardModel) where
  board : BState M
  turn : ℕ
  value : ℚ
  moves0 : ℤ
  moves1 : ℤ
  captureds0 : ℤ
  captureds1 : ℤ
  histories : List (List ℤ)
  rule : ℕ
  superko : Bool

/-- player.py `Player.__init__`: fresh board, zero counters, empty
`histories`. -/
def freshPlayer (M : BoardModel) (rule : ℕ) (superko : Bool) : PState M :=
  ⟨⟨BLACK, M.initConf⟩, 0, 0, 0, 0, 0, 0, [], rule, superko⟩

/-- player.py `Player.initialize`: resets the native board, `turn`,
`value` and the move/captured counters; `histories` is not touched. -/
def Player.initialize {M : BoardModel} (p : PState M) : PState M :=
  { p with board := ⟨BLACK, M.initConf⟩, turn := 0, value := 0,
           moves0 := 0, moves1 := 0, captureds0 := 0, captureds1 := 0 }

/-- player.py `Player.play`: pass for the other side when the colours
disagree, play natively, bump the counters, and record the resulting
pattern fingerprint in `histories`. -/
def Player.play {M : BoardModel} (p : PState M) (pos : GoPos) (color : Option ℤ) :
    PState M × ℤ :=
  let c := color.getD p.board.toMove
  let b1 := if p.board.toMove ≠ c then (nativePlay p.board PASS).1 else p.board
  let r := nativePlay b1 pos
  let move_count : ℤ :=
    if is_valid_position pos M.width M.height ∧ 0 ≤ r.2 then 1 else 0
  (⟨r.1, p.turn + 1, p.value,
    p.moves0 + (if c = BLACK then move_count else 0),
    p.moves1 + (if c = WHITE then move_count else 0),
    p.captureds0 + (if c = WHITE then r.2 else 0),
    p.captureds1 + (if c = BLACK then r.2 else 0),
    M.patterns r.1.stones :: p.histories,
    p.rule, p.superko⟩, r.2)

/-- player.py `Player.is_superko_move`: play `pos`/`color` on a copy of the
current board and look the resulting fingerprint up in `histories` (the
claims only apply this to legal moves, where `Board.play` cannot raise). -/
def isSuperkoMove {M : BoardModel} (p : PState M) (pos : GoPos) (color : ℤ) : Bool :=
  if ¬ is_valid_position pos M.width M.height then false
  else decide (M.patterns (M.playStone p.board.stones pos color) ∈ p.histories)

/-- player.py `Player.get_cleanup_position`: the first position in numpy
row-major order that is 4-adjacent to a dead stone (settled Black territory
occupied by a White-oriented stone) and playable; `PASS` if none exists. -/
def getCleanupPosition {M : BoardModel} (p : PState M) (color : ℤ) : GoPos :=
  let s := p.board.stones
  let dead : GoPos → Bool := fun q =>
    is_valid_position q M.width M.height &&
    decide (M.terrAt s color q = BLACK) && decide (M.colorsAt s color q = WHITE)
  let target : GoPos → Bool := fun q =>
    dead (q.1, q.2 - 1) || dead (q.1, q.2 + 1) || dead (q.1 - 1, q.2) || dead (q.1 + 1, q.2)
  let hit := (List.range M.height.toNat).findSome? (fun y =>
    (List.range M.width.toNat).findSome? (fun x =>
      let q : GoPos := ((x : ℤ), (y : ℤ))
      if target q && M.enabledAt s color q then some q else none))
  hit.getD PASS

/-- Search-criterion argument of `Player.evaluate` (`'lcb'` or `'visits'`;
the code raises on any other string). -/
inductive Criterion | lcb | visits

/-- player.py `Player.evaluate`: the pure pipeline applied after the native
search has produced its raw candidate list — superko filtering, the pass
fallback, the Computer-rule cleanup substitution, and the final sort.
`passCand` stands for `Candidate(*self.native.get_pass())` and `lcbLe`
abstracts the real-valued `win_chance_lcb` comparison of the `'lcb'` sort
(every property proved below is invariant under the comparator). -/
def Player.evaluate {M : BoardModel} (p : PState M) (raw : List Candidate)
    (passCand : Candidate) (criterion : Criterion)
    (lcbLe : Candidate → Candidate → Bool) : List Candidate :=
  let cands1 := if p.superko then raw.filter (fun c => ! isSuperkoMove p c.pos c.color) else raw
  let cands2 := if cands1.isEmpty then [passCand] else cands1
  let cands3 :=
    if p.rule = RULE_COM then
      cands2.map (fun c =>
        if ¬ is_valid_position c.pos M.width M.height then
          { c with pos := getCleanupPosition p c.color }
        else c)
    else cands2
  match criterion with
  | Criterion.visits => sortLe (fun a b => decide (b.visits ≤ a.visits)) cands3
  | Criterion.lcb => sortLe lcbLe cands3

/-- Replays a logged move list through `Player.play` (what the GTP `undo`
handler does with its retained move log). -/
def replayMoves {M : BoardModel} (p : PState M) : List (GoPos × ℤ) → PState M
  | [] => p
  | (pos, c) :: rest => replayMoves (Player.play p pos (some c)).1 rest

/-- gtp.py `_perform_command_undo` effect on the player: drop the last
logged move, `initialize`, replay the prefix. -/
def undoPlayer {M : BoardModel} (p : PState M) (moves : List (GoPos × ℤ)) : PState M :=
  replayMoves ( Player.initialize p) moves.dropLast

/-! ## SGF records (record.py, C7) -/

/-- SGF node: an association list with Python-dict semantics (insertion
order, overwrite in place). -/
abbrev SgfDict := List (List Char × List Char)

/-- Python dict assignment `d[k] = v`: overwrite in place, else append. -/
def dictSet (d : SgfDict) (k v : List Char) : SgfDict :=
  match d with
  | [] => [(k, v)]
  | (k', v') :: rest => if k' = k then (k, v) :: rest else (k', v') :: dictSet rest k v

/-- Python `k in d`. -/
def dictHas (d : SgfDict) (k : List Char) : Bool := d.any (fun e => decide (e.1 = k))

/-- Python `d[k]` (`none` = missing key). -/
def dictGet (d : SgfDict) (k : List Char) : Option (List Char) :=
  (d.find? (fun e => decide (e.1 = k))).map (fun e => e.2)

/-- record.py `_parse_text` state machine after the opening parenthesis.
`vl` is `values_list` with the most recent node first, `name`/`value` the
accumulators, `escape` the backslash flag, `inValue` distinguishes state 2
from state 1. Returns `none` where the Python code raises (text exhausted
before `)`, or a property closed before any `;`). -/
def parseSgfAux : List Char → List SgfDict → List Char → List Char → Bool → Bool →
    Option (List SgfDict)
  | [], _, _, _, _, _ => none
  | ch :: rest, vl, name, value, escape, inValue =>
    if inValue = false then
      if ch = ')' then some vl.reverse
      else if ch = ';' then parseSgfAux rest ([] :: vl) [] [] false false
      else if ch = '[' then parseSgfAux rest vl name value false true
      else if ch.isWhitespace then parseSgfAux rest vl name value false false
      else parseSgfAux rest vl (name ++ [ch]) value false false
    else
      if escape = false ∧ ch = ']' then
        match vl with
        | [] => none
        | d :: ds => parseSgfAux rest (dictSet d (strLower name) value :: ds) [] [] false false
      else if escape = false ∧ ch = '\\' then parseSgfAux rest vl name value true true
      else parseSgfAux rest vl name (value ++ [ch]) false true

/-- record.py `_parse_text`: skip to the first `(`, then run the machine
(no `(`: the machine is never entered and the list is empty). -/
def parseSgfValues (text : List Char) : Option (List SgfDict) :=
  match text.dropWhile (fun ch => decide (ch ≠ '(')) with
  | [] => some []
  | _ :: rest => parseSgfAux rest [] [] [] false false

/-- One parsed SGF move: position, colour, optional comment. -/
structure SgfMove where
  pos : GoPos
  color : ℤ
  message : Option (List Char)
deriving DecidableEq

/-- record.py `Record` data: properties dictionary and move list. -/
structure SgfRecord where
  properties : SgfDict
  moves : List SgfMove
deriving DecidableEq

/-- record.py `Record.size`: `int(self.properties.get('sz', '19'))`;
`none` models the `ValueError` on a malformed value. -/
def SgfRecord.size (r : SgfRecord) : Option ℤ :=
  parseIntChars ((dictGet r.properties ("sz".toList)).getD (natToChars DEFAULT_SIZE))

/-- record.py `Record._parse` move extraction from one SGF node (`none`
when the node has neither a `b` nor a `w` key and is skipped). -/
def nodeToMove (size : ℤ) (v : SgfDict) : Option SgfMove :=
  let pick : Option (List Char × ℤ) :=
    match dictGet v ("b".toList) with
    | some coord => some (coord, BLACK)
    | none =>
      match dictGet v ("w".toList) with
      | some coord => some (coord, WHITE)
      | none => none
  match pick with
  | none => none
  | some (coord, color) =>
    let pos : GoPos :=
      match coord with
      | [c0, c1] => ((c0.toNat : ℤ) - 97, (c1.toNat : ℤ) - 97)
      | _ => PASS
    let pos := if ¬ is_valid_position pos size size then PASS else pos
    some ⟨pos, color, dictGet v ("c".toList)⟩

/-- record.py `Record.__init__` + `_parse` as a total function: `none`
models every raised exception (malformed text, or an unparseable `sz`
evaluated because a move node is present). -/
def recordParse (text : List Char) : Option SgfRecord :=
  match parseSgfValues text with
  | none => none
  | some [] => none
  | some (v0 :: rest) =>
    let props0 : SgfDict := v0.foldl (fun d e => dictSet d (strLower e.1) e.2) []
    let props := if dictHas props0 ("sz".toList) then props0
                 else dictSet props0 ("sz".toList) (natToChars DEFAULT_SIZE)
    let hasMove := rest.any (fun v => dictHas v ("b".toList) || dictHas v ("w".toList))
    match parseIntChars ((dictGet props ("sz".toList)).getD []) with
    | none => if hasMove then none else some ⟨props, []⟩
    | some size => some ⟨props, rest.filterMap (nodeToMove size)⟩

/-- record.py `_escape_value`: double backslashes, escape `]`. -/
def escapeValue (v : List Char) : List Char :=
  (v.map (fun ch =>
    if ch = '\\' then ['\\', '\\'] else if ch = ']' then ['\\', ']'] else [ch])).flatten

/-- record.py `Record.dumps`, one move chunk: `;B[xy]` / `;W[]`, plus
`C[...]` when a comment is present. -/
def moveChunk (size : ℤ) (m : SgfMove) : List Char :=
  let cch := if m.color = BLACK then 'B' else 'W'
  let p := if is_valid_position m.pos size size then
             [Char.ofNat (97 + m.pos.1).toNat, Char.ofNat (97 + m.pos.2).toNat]
           else []
  let base := ';' :: cch :: '[' :: (p ++ [']'])
  match m.message with
  | none => base
  | some msg => base ++ ('C' :: '[' :: (escapeValue msg ++ [']']))

/-- record.py `Record.dumps`: `none` models the exceptions the code can
raise (unparseable `sz`; a coordinate byte out of `struct.pack('B', ...)`
range). -/
def recordDumps (r : SgfRecord) : Option (List Char) :=
  match r.size with
  | none => none
  | some size =>
    let props0 : SgfDict := r.properties.foldl (fun d e => dictSet d e.1 e.2) []
    let props := dictSet (dictSet (dictSet props0
                   ("gm".toList) ("1".toList))
                   ("ff".toList) ("4".toList))
                   ("sz".toList) (intToChars size)
    let sorted := sortLe (fun a b => charListLe a.1 b.1) props
    let propsText := (sorted.map (fun e => strUpper e.1 ++ ('[' :: (e.2 ++ [']'])))).flatten
    if r.moves.any (fun m => is_valid_position m.pos size size &&
        (decide (255 < 97 + m.pos.1) || decide (255 < 97 + m.pos.2))) then none
    else
      some ('(' :: ';' :: (propsText ++ (r.moves.map (moveChunk size)).flatten ++ [')']))

/-! ## SGF well-formedness and node shapes (C7) -/

/-- Lower-case ASCII letter or digit (the shape of parsed SGF property
keys in the ASCII model of Python casing). -/
def lcKeyChar (ch : Char) : Bool :=
  (97 ≤ ch.toNat && ch.toNat ≤ 122) || (48 ≤ ch.toNat && ch.toNat ≤ 57)

/-- Well-formed property key: lower-case ASCII letters and digits. -/
def sgfKeyWf (k : List Char) : Bool := k.all lcKeyChar

/-- Well-formed property value: free of `]` and `\` (the two characters
`dumps` leaves unescaped in property values). -/
def sgfValWf (v : List Char) : Bool :=
  v.all (fun ch => decide (ch ≠ ']') && decide (ch ≠ '\\'))

/-- The SGF node that one dumped move parses back to. -/
def moveNodeDict (size : ℤ) (m : SgfMove) : SgfDict :=
  let key := if m.color = BLACK then "b".toList else "w".toList
  let p := if is_valid_position m.pos size size then
             [Char.ofNat (97 + m.pos.1).toNat, Char.ofNat (97 + m.pos.2).toNat]
           else []
  match m.message with
  | none => [(key, p)]
  | some msg => [(key, p), ("c".toList, msg)]

/-- Move normalisation performed by a dump/parse roundtrip: out-of-board
positions become `PASS` and any non-Black colour prints as White. -/
def normalizeMove (size : ℤ) (m : SgfMove) : SgfMove :=
  ⟨if is_valid_position m.pos size size then m.pos else PASS,
   if m.color = BLACK then BLACK else WHITE, m.message⟩

/-! ## Concrete board-model instance (counterexample and witness inputs)

A tiny 2×2 instantiation of the abstract native board: the stone
configuration is a bare counter, every stone play yields the fingerprint
`[1]`, the cell `(0, 0)` holds a dead White stone inside settled Black
territory, and every other cell is playable. -/

def cexModel : BoardModel where
  width := 2
  height := 2
  Conf := ℕ
  initConf := 0
  playStone := fun _ _ _ => 1
  capturedOf := fun _ _ _ => 0
  patterns := fun s => [(s : ℤ)]
  colorsAt := fun _ _ q => if q = (0, 0) then WHITE else goEMPTY
  terrAt := fun _ _ q => if q = (0, 0) then BLACK else goEMPTY
  enabledAt := fun _ _ q => decide (q ≠ (0, 0))

/-- Player state over `cexModel`: Computer rule, superko enabled, and the
post-stone-play fingerprint `[1]` already recorded in `histories`. -/
def cexState : PState cexModel :=
  ⟨⟨BLACK, (0 : ℕ)⟩, 0, 0, 0, 0, 0, 0, [[1]], RULE_COM, true⟩

/-- Raw native candidate at `(0, 0)` for Black (a superko repetition in
`cexState`). -/
def cexRawCand : Candidate := ⟨(0, 0), 1, 1, 0, 0, 0, []⟩

/-- Pass candidate returned by the native `get_pass` in the counterexample
runs. -/
def cexPassCand : Candidate := ⟨PASS, 1, 0, 0, 0, 0, []⟩

/-! ## Theorems -/

/-! ### Character and digit-string helper lemmas -/

theorem isValidChar_of_lt {n : ℕ} (h : n < 55296) : n.isValidChar := Or.inl h

theorem toNat_ofNat_of_valid {n : ℕ} (h : n.isValidChar) : (Char.ofNat n).toNat = n := by
  unfold Char.ofNat
  split
  · rfl
  · exact absurd h (by assumption)

theorem digitChar_toNat {d : ℕ} (h : d < 10) : (digitChar d).toNat = 48 + d :=
  toNat_ofNat_of_valid (isValidChar_of_lt (by omega))

theorem isDigitChar_digitChar {d : ℕ} (h : d < 10) : isDigitChar (digitChar d) = true := by
  simp only [isDigitChar, digitChar_toNat h, Bool.and_eq_true, decide_eq_true_eq]
  omega

theorem natToCharsAux_all_digits :
    ∀ fuel n, (natToCharsAux fuel n).all isDigitChar = true := by
  intro fuel
  induction fuel with
  | zero => intro n; rfl
  | succ f ih =>
    intro n
    simp only [natToCharsAux]
    split
    · rename_i h10
      simp [isDigitChar_digitChar h10]
    · simp [List.all_append, ih, isDigitChar_digitChar (Nat.mod_lt n (by norm_num))]

theorem natToChars_all_digits (n : ℕ) : (natToChars n).all isDigitChar = true :=
  natToCharsAux_all_digits (n + 1) n

theorem natToCharsAux_ne_nil (fuel n : ℕ) : natToCharsAux (fuel + 1) n ≠ [] := by
  simp only [natToCharsAux]
  split
  · simp
  · simp

theorem natToChars_ne_nil (n : ℕ) : natToChars n ≠ [] := natToCharsAux_ne_nil n n

theorem parseDigitsAux_append (acc : ℕ) (xs ys : List Char) :
    parseDigitsAux (xs ++ ys) acc = parseDigitsAux ys (parseDigitsAux xs acc) := by
  induction xs generalizing acc with
  | nil => rfl
  | cons c cs ih =>
    rw [List.cons_append]
    show parseDigitsAux (cs ++ ys) (10 * acc + (c.toNat - 48)) =
      parseDigitsAux ys (parseDigitsAux cs (10 * acc + (c.toNat - 48)))
    exact ih (10 * acc + (c.toNat - 48))

theorem parseDigitsAux_natToCharsAux :
    ∀ fuel n acc, n < 10 ^ fuel →
      parseDigitsAux (natToCharsAux fuel n) acc =
        acc * 10 ^ (natToCharsAux fuel n).length + n := by
  intro fuel
  induction fuel with
  | zero =>
    intro n acc hn
    have hn0 : n = 0 := by omega
    subst hn0
    simp [natToCharsAux, parseDigitsAux]
  | succ f ih =>
    intro n acc hn
    simp only [natToCharsAux]
    split
    · rename_i h10
      simp only [parseDigitsAux, digitChar_toNat h10, List.length_cons, List.length_nil]
      omega
    · rename_i h10
      have hdiv : n / 10 < 10 ^ f := by
        rw [Nat.div_lt_iff_lt_mul (by norm_num)]
        calc n < 10 ^ (f + 1) := hn
        _ = 10 ^ f * 10 := by ring
      rw [parseDigitsAux_append acc]
      rw [ih (n / 10) acc hdiv]
      have hmod : n % 10 < 10 := Nat.mod_lt n (by norm_num)
      simp only [parseDigitsAux, digitChar_toNat hmod, List.length_append,
        List.length_cons, List.length_nil]
      have h48 : 48 + n % 10 - 48 = n % 10 := by omega
      rw [h48]
      have hm : 10 * (n / 10) + n % 10 = n := Nat.div_add_mod n 10
      calc 10 * (acc * 10 ^ (natToCharsAux f (n / 10)).length + n / 10) + n % 10
          = acc * (10 ^ (natToCharsAux f (n / 10)).length * 10)
            + (10 * (n / 10) + n % 10) := by ring
        _ = acc * 10 ^ ((natToCharsAux f (n / 10)).length + (0 + 1)) + n := by
            rw [hm, pow_succ]

theorem lt_ten_pow (n : ℕ) : n < 10 ^ (n + 1) :=
  lt_of_lt_of_le (Nat.lt_pow_self (by norm_num) n) (Nat.pow_le_pow_right (by norm_num) (by omega))

theorem parseDigits_natToChars (n : ℕ) : parseDigitsAux (natToChars n) 0 = n := by
  have h := parseDigitsAux_natToCharsAux (n + 1) n 0 (lt_ten_pow n)
  simpa [natToChars] using h

theorem charLower_of_digit {c : Char} (h : isDigitChar c = true) : charLower c = c := by
  simp only [isDigitChar, Bool.and_eq_true, decide_eq_true_eq] at h
  rw [charLower, if_neg (by omega)]

theorem strLower_cons_cons_ne (c : Char) {ds : List Char} (hne : ds ≠ [])
    (hall : ds.all isDigitChar = true) (a b : Char) (t : List Char)
    (hb : isDigitChar b = false) : strLower (c :: ds) ≠ a :: b :: t := by
  cases ds with
  | nil => exact absurd rfl hne
  | cons d rest =>
    intro h
    simp only [strLower, List.map_cons, List.cons.injEq] at h
    have hd : isDigitChar d = true := by
      simp only [List.all_cons, Bool.and_eq_true] at hall
      exact hall.1
    rw [charLower_of_digit hd] at h
    rw [← h.2.1] at hb
    rw [hd] at hb
    exact Bool.noConfusion hb

/-- Core GTP-parse computation: a column letter followed by the decimal
digits of `n ≥ 1` parses through the vertex branch. -/
theorem gtp_parse_col_digits (w h : ℤ) (c : Char) (n : ℕ) (x : ℤ) (hn : 1 ≤ n)
    (hc : isGtpColChar c = true)
    (hx : (if (((charUpper c).toNat : ℤ) - 65) > 8
           then (((charUpper c).toNat : ℤ) - 65) - 1
           else (((charUpper c).toNat : ℤ) - 65)) = x) :
    gtp_string_to_position (c :: natToChars n) w h =
      if is_valid_position (x, h - n) w h then Except.ok (some (x, h - n))
      else Except.error () := by
  have hne : natToChars n ≠ [] := natToChars_ne_nil n
  have hall : (natToChars n).all isDigitChar = true := natToChars_all_digits n
  have hpass : strLower (c :: natToChars n) ≠ "pass".toList := by
    have e : "pass".toList = 'p' :: 'a' :: ['s', 's'] := rfl
    rw [e]
    exact strLower_cons_cons_ne c hne hall 'p' 'a' ['s', 's'] (by decide)
  have hresign : strLower (c :: natToChars n) ≠ "resign".toList := by
    have e : "resign".toList = 'r' :: 'e' :: ['s', 'i', 'g', 'n'] := rfl
    rw [e]
    exact strLower_cons_cons_ne c hne hall 'r' 'e' ['s', 'i', 'g', 'n'] (by decide)
  rw [gtp_string_to_position]
  rw [if_neg hpass, if_neg hresign]
  dsimp only
  rw [if_pos ⟨hc, hne, hall⟩]
  rw [parseDigits_natToChars]
  rw [hx]

/-- Roundtrip core: formatting an on-board vertex with column index at most
18 and parsing it back is the identity. -/
theorem gtp_roundtrip_core (N x y : ℤ) (hx0 : 0 ≤ x) (hx18 : x ≤ 18) (hxN : x < N)
    (hy0 : 0 ≤ y) (hyN : y < N) :
    gtp_string_to_position (gtp_position_to_string (some (x, y)) N N) N N =
      Except.ok (some (x, y)) := by
  have hvalid : is_valid_position (x, y) N N = true := by
    simp only [is_valid_position, Bool.and_eq_true, decide_eq_true_eq]
    omega
  rw [gtp_position_to_string]
  rw [if_neg (by simp [hvalid])]
  dsimp only
  by_cases hx8 : x ≥ 8
  · rw [if_pos hx8]
    set k : ℕ := (65 + (x + 1)).toNat with hkdef
    have hk : (k : ℤ) = 66 + x := by omega
    have hctoNat : (Char.ofNat k).toNat = k :=
      toNat_ofNat_of_valid (isValidChar_of_lt (by omega))
    have hcc : isGtpColChar (Char.ofNat k) = true := by
      simp only [isGtpColChar, hctoNat, Bool.or_eq_true, Bool.and_eq_true,
        decide_eq_true_eq]
      omega
    have hcu : charUpper (Char.ofNat k) = Char.ofNat k := by
      rw [charUpper, if_neg (by rw [hctoNat]; omega)]
    have hm1 : 1 ≤ (N - y).toNat := by omega
    rw [gtp_parse_col_digits N N (Char.ofNat k) (N - y).toNat x hm1 hcc ?_]
    · have hmy : N - ((N - y).toNat : ℤ) = y := by omega
      rw [hmy, if_pos hvalid]
    · rw [hcu]
      rw [hctoNat]
      rw [if_pos (by omega)]
      omega
  · rw [if_neg hx8]
    set k : ℕ := (65 + x).toNat with hkdef
    have hk : (k : ℤ) = 65 + x := by omega
    have hctoNat : (Char.ofNat k).toNat = k :=
      toNat_ofNat_of_valid (isValidChar_of_lt (by omega))
    have hcc : isGtpColChar (Char.ofNat k) = true := by
      simp only [isGtpColChar, hctoNat, Bool.or_eq_true, Bool.and_eq_true,
        decide_eq_true_eq]
      omega
    have hcu : charUpper (Char.ofNat k) = Char.ofNat k := by
      rw [charUpper, if_neg (by rw [hctoNat]; omega)]
    have hm1 : 1 ≤ (N - y).toNat := by omega
    rw [gtp_parse_col_digits N N (Char.ofNat k) (N - y).toNat x hm1 hcc ?_]
    · have hmy : N - ((N - y).toNat : ℤ) = y := by omega
      rw [hmy, if_pos hvalid]
    · rw [hcu]
      rw [hctoNat]
      rw [if_neg (by omega)]
      omega

/-- C3: on every `N×N` board with `1 ≤ N ≤ 19`, parsing the formatted
string of an on-board vertex returns that vertex; the pass sentinel formats
as `"PASS"` and `None` (resignation) formats as `"resign"`. -/
theorem gtp_roundtrip (N : ℤ) (h1 : 1 ≤ N) (h19 : N ≤ 19) :
    (∀ x y : ℤ, 0 ≤ x → x < N → 0 ≤ y → y < N →
      gtp_string_to_position (gtp_position_to_string (some (x, y)) N N) N N =
        Except.ok (some (x, y)))
    ∧ gtp_position_to_string (some PASS) N N = "PASS".toList
    ∧ gtp_position_to_string none N N = "resign".toList := by
  refine ⟨?_, ?_, rfl⟩
  · intro x y hx0 hxN hy0 hyN
    exact gtp_roundtrip_core N x y hx0 (by omega) hxN hy0 hyN
  · rw [gtp_position_to_string]
    rw [if_pos]
    simp only [PASS, is_valid_position, Bool.and_eq_true, decide_eq_true_eq]
    omega

/-- Witness for C3 at the concrete input `N = 9`, `v = (2, 3)`. -/
theorem gtp_roundtrip_witness :
    (1 ≤ (9 : ℤ)) ∧ ((9 : ℤ) ≤ 19) ∧ (0 ≤ (2 : ℤ)) ∧ ((2 : ℤ) < 9)
    ∧ (0 ≤ (3 : ℤ)) ∧ ((3 : ℤ) < 9)
    ∧ gtp_string_to_position (gtp_position_to_string (some (2, 3)) 9 9) 9 9 =
        Except.ok (some (2, 3))
    ∧ gtp_position_to_string (some PASS) 9 9 = "PASS".toList
    ∧ gtp_position_to_string none 9 9 = "resign".toList := by
  obtain ⟨h1, h2, h3⟩ := gtp_roundtrip 9 (by norm_num) (by norm_num)
  exact ⟨by norm_num, by norm_num, by norm_num, by norm_num, by norm_num, by norm_num,
    h1 2 3 (by norm_num) (by norm_num) (by norm_num) (by norm_num), h2, h3⟩

/-- C9: on boards of width and height at least 9, the parser maps both
column letters `I`/`i` and `J`/`j` with row number `n` to the same vertex
`(8, height - n)` — the skipped column letter `I` is accepted, not
rejected. -/
theorem gtp_parse_i_j (w h : ℤ) (n : ℕ) (h9w : 9 ≤ w) (h9h : 9 ≤ h)
    (hn : 1 ≤ n) (hnh : (n : ℤ) ≤ h) :
    gtp_string_to_position ('I' :: natToChars n) w h = Except.ok (some (8, h - n))
    ∧ gtp_string_to_position ('i' :: natToChars n) w h = Except.ok (some (8, h - n))
    ∧ gtp_string_to_position ('J' :: natToChars n) w h = Except.ok (some (8, h - n))
    ∧ gtp_string_to_position ('j' :: natToChars n) w h = Except.ok (some (8, h - n)) := by
  have hvalid : is_valid_position (8, h - (n : ℤ)) w h = true := by
    simp only [is_valid_position, Bool.and_eq_true, decide_eq_true_eq]
    omega
  refine ⟨?_, ?_, ?_, ?_⟩
  · rw [gtp_parse_col_digits w h 'I' n 8 hn (by decide) (by decide)]
    rw [if_pos hvalid]
  · rw [gtp_parse_col_digits w h 'i' n 8 hn (by decide) (by decide)]
    rw [if_pos hvalid]
  · rw [gtp_parse_col_digits w h 'J' n 8 hn (by decide) (by decide)]
    rw [if_pos hvalid]
  · rw [gtp_parse_col_digits w h 'j' n 8 hn (by decide) (by decide)]
    rw [if_pos hvalid]

/-- Witness for C9 at the concrete input `w = h = 9`, `n = 1`. -/
theorem gtp_parse_i_j_witness :
    (9 ≤ (9 : ℤ)) ∧ (1 ≤ 1) ∧ ((1 : ℤ) ≤ 9)
    ∧ gtp_string_to_position ('I' :: natToChars 1) 9 9 = Except.ok (some (8, 8))
    ∧ gtp_string_to_position ('J' :: natToChars 1) 9 9 = Except.ok (some (8, 8)) := by
  obtain ⟨hI, _, hJ, _⟩ := gtp_parse_i_j 9 9 1 (by norm_num) (by norm_num)
    (by norm_num) (by norm_num)
  refine ⟨by norm_num, by norm_num, by norm_num, ?_, ?_⟩
  · rw [hI]; norm_num
  · rw [hJ]; norm_num

/-- C2: for a candidate with colour in `{+1, -1}` and value in `[-1, +1]`,
`win_chance` equals `value * color * 0.5 + 0.5` and lies in `[0, 1]`;
`win_chance_lcb` equals `win_chance - 1.96 * 0.25 / sqrt(visits + 1)` and
is at most `win_chance`. -/
theorem candidate_win_chance_spec (c : Candidate)
    (hcol : c.color = 1 ∨ c.color = -1) (hv1 : -1 ≤ c.value) (hv2 : c.value ≤ 1) :
    c.win_chance = c.value * (c.color : ℚ) * 0.5 + 0.5
    ∧ 0 ≤ c.win_chance ∧ c.win_chance ≤ 1
    ∧ c.win_chance_lcb =
        (c.win_chance : ℝ) - 1.96 * 0.25 / Real.sqrt ((c.visits : ℝ) + 1)
    ∧ c.win_chance_lcb ≤ (c.win_chance : ℝ) := by
  have hgap : (0 : ℝ) ≤ 1.96 * 0.25 / Real.sqrt ((c.visits : ℝ) + 1) := by positivity
  refine ⟨rfl, ?_, ?_, rfl, ?_⟩
  · rcases hcol with h | h <;> rw [Candidate.win_chance, h] <;> push_cast <;> nlinarith
  · rcases hcol with h | h <;> rw [Candidate.win_chance, h] <;> push_cast <;> nlinarith
  · rw [Candidate.win_chance_lcb]
    linarith

/-- Witness for C2 at a concrete candidate (`color = 1`, `value = 0`,
`visits = 0`). -/
theorem candidate_win_chance_spec_witness :
    ((⟨(0, 0), 1, 0, 0, 0, 0, []⟩ : Candidate).color = 1
      ∨ (⟨(0, 0), 1, 0, 0, 0, 0, []⟩ : Candidate).color = -1)
    ∧ (0 ≤ (⟨(0, 0), 1, 0, 0, 0, 0, []⟩ : Candidate).win_chance
        ∧ (⟨(0, 0), 1, 0, 0, 0, 0, []⟩ : Candidate).win_chance ≤ 1)
    ∧ (⟨(0, 0), 1, 0, 0, 0, 0, []⟩ : Candidate).win_chance_lcb ≤
        ((⟨(0, 0), 1, 0, 0, 0, 0, []⟩ : Candidate).win_chance : ℝ) := by
  have h := candidate_win_chance_spec ⟨(0, 0), 1, 0, 0, 0, 0, []⟩
    (Or.inl rfl) (by norm_num) (by norm_num)
  exact ⟨Or.inl rfl, ⟨h.2.1, h.2.2.1⟩, h.2.2.2.2⟩

/-- C4: the resignation tail of `GTPEngine._get_move` resigns (returns
`None`) exactly when the turn has reached `resign_turn`, the absolute
predicted score has reached `resign_score`, and the candidate's win chance
is below `resign_threshold`; otherwise the candidate's own position is
returned. -/
theorem get_move_resign_spec (turn rt : ℕ) (score rs w th : ℚ) (pos : GoPos) :
    (getMoveResign turn rt score rs w th pos = none ↔
      rt ≤ turn ∧ rs ≤ |score| ∧ w < th)
    ∧ (¬ (rt ≤ turn ∧ rs ≤ |score| ∧ w < th) →
      getMoveResign turn rt score rs w th pos = some pos) := by
  unfold getMoveResign
  split_ifs with h1 h2 h3
  · exact ⟨⟨fun h => absurd h (by simp), fun h => absurd h.1 (by omega)⟩, fun _ => rfl⟩
  · exact ⟨⟨fun h => absurd h (by simp), fun h => absurd h.2.1 (by linarith)⟩, fun _ => rfl⟩
  · refine ⟨⟨fun _ => ⟨by omega, by linarith, h3⟩, fun _ => rfl⟩, ?_⟩
    intro hn
    exact (hn ⟨by omega, by linarith, h3⟩).elim
  · exact ⟨⟨fun h => absurd h (by simp), fun h => absurd h.2.2 h3⟩, fun _ => rfl⟩

/-- Witness for C4 at concrete inputs: a resigning case and a non-resigning
case. -/
theorem get_move_resign_spec_witness :
    getMoveResign 5 3 10 2 0 (1 / 2) (0, 0) = none
    ∧ getMoveResign 0 3 10 2 0 (1 / 2) (0, 0) = some (0, 0) := by
  constructor
  · exact (get_move_resign_spec 5 3 10 2 0 (1 / 2) (0, 0)).1.mpr
      ⟨by norm_num, by norm_num, by norm_num⟩
  · exact (get_move_resign_spec 0 3 10 2 0 (1 / 2) (0, 0)).2
      (fun h => absurd h.1 (by norm_num))

/-- C8: `GTPEngine._get_timelimit` returns
`max(min(timelimit, (R - 20) * 0.02), 0)` when the colour's remaining time
`R` is nonnegative, and the configured `timelimit` unchanged when `R` is
negative. -/
theorem get_timelimit_spec (tl rb rw : ℚ) (color : ℤ) :
    (0 ≤ (if color = BLACK then rb else rw) →
      getTimelimit tl rb rw color =
        max (min tl (((if color = BLACK then rb else rw) - 20) * 0.02)) 0)
    ∧ ((if color = BLACK then rb else rw) < 0 → getTimelimit tl rb rw color = tl) := by
  unfold getTimelimit
  constructor
  · intro h
    rw [if_neg (by linarith)]
  · intro h
    rw [if_pos h]

/-- Witness for C8 at concrete inputs: a timed Black clock (`R = 100`) and
an untimed one (`R = -1`). -/
theorem get_timelimit_spec_witness :
    getTimelimit 10 100 50 1 = max (min 10 ((100 - 20) * 0.02)) 0
    ∧ getTimelimit 10 (-1) 50 1 = 10 := by
  constructor
  · have h := (get_timelimit_spec 10 100 50 1).1 (by norm_num [BLACK])
    simpa [BLACK] using h
  · exact (get_timelimit_spec 10 (-1) 50 1).2 (by norm_num [BLACK])

/-! ### pyInt and win-chance helper lemmas (C5) -/

theorem pyInt_le {x : ℝ} {n : ℤ} (h : x ≤ (n : ℝ)) : pyInt x ≤ n := by
  unfold pyInt
  split_ifs with h0
  · have := Int.floor_mono h
    rwa [Int.floor_intCast] at this
  · have h1 : ((-n : ℤ) : ℝ) ≤ -x := by push_cast; linarith
    have h2 : (-n : ℤ) ≤ ⌊-x⌋ := Int.le_floor.mpr h1
    omega

theorem pyInt_ge {x : ℝ} {n : ℤ} (h : (n : ℝ) ≤ x) : n ≤ pyInt x := by
  unfold pyInt
  split_ifs with h0
  · exact Int.le_floor.mpr h
  · have h1 : -x ≤ ((-n : ℤ) : ℝ) := by push_cast; linarith
    have h2 : ⌊-x⌋ ≤ (-n : ℤ) := by
      have := Int.floor_mono h1
      rwa [Int.floor_intCast] at this
    omega

/-- Shared bound: a candidate with colour in `{1, -1}` and value in
`[-1, 1]` has `win_chance` in `[0, 1]`. -/
theorem win_chance_mem_bounds (c : Candidate)
    (hcol : c.color = 1 ∨ c.color = -1) (hv1 : -1 ≤ c.value) (hv2 : c.value ≤ 1) :
    0 ≤ c.win_chance ∧ c.win_chance ≤ 1 := by
  constructor
  · rcases hcol with h | h <;> rw [Candidate.win_chance, h] <;> push_cast <;> nlinarith
  · rcases hcol with h | h <;> rw [Candidate.win_chance, h] <;> push_cast <;> nlinarith

/-- Shared bound: `win_chance_lcb` is below `win_chance` by at most `0.49`
(the gap is `1.96 * 0.25 / sqrt(visits + 1)` with `sqrt(visits + 1) ≥ 1`). -/
theorem win_chance_lcb_bounds (c : Candidate) :
    (c.win_chance : ℝ) - 0.49 ≤ c.win_chance_lcb
    ∧ c.win_chance_lcb ≤ (c.win_chance : ℝ) := by
  have hs1 : (1 : ℝ) ≤ Real.sqrt ((c.visits : ℝ) + 1) := by
    have hc : (0 : ℝ) ≤ (c.visits : ℝ) := Nat.cast_nonneg c.visits
    have h1 := Real.sqrt_le_sqrt (show (1 : ℝ) ≤ (c.visits : ℝ) + 1 by linarith)
    rwa [Real.sqrt_one] at h1
  have hs0 : (0 : ℝ) < Real.sqrt ((c.visits : ℝ) + 1) := by linarith
  have hgap0 : (0 : ℝ) ≤ 1.96 * 0.25 / Real.sqrt ((c.visits : ℝ) + 1) := by positivity
  have hgap : 1.96 * 0.25 / Real.sqrt ((c.visits : ℝ) + 1) ≤ 0.49 := by
    rw [div_le_iff hs0]
    nlinarith
  rw [Candidate.win_chance_lcb]
  constructor
  · linarith
  · linarith

/-- C5 amended: with value in `[-1, 1]` and colour in `{1, -1}`, the
LeelaZero `winrate` field is in `0..10000` and so is `prior` whenever the
policy prior is in `[0, 1]`; the `lcb` field is only guaranteed to lie in
`-4900..10000` and is negative for losing positions with few visits. -/
theorem lz_fields_amended (c : Candidate)
    (hcol : c.color = 1 ∨ c.color = -1)
    (hv1 : -1 ≤ c.value) (hv2 : c.value ≤ 1)
    (hp1 : 0 ≤ c.policy) (hp2 : c.policy ≤ 1) :
    (0 ≤ lzWinrateField c ∧ lzWinrateField c ≤ 10000)
    ∧ (0 ≤ lzPriorField c ∧ lzPriorField c ≤ 10000)
    ∧ (-4900 ≤ lzLcbField c ∧ lzLcbField c ≤ 10000) := by
  obtain ⟨hw0, hw1⟩ := win_chance_mem_bounds c hcol hv1 hv2
  obtain ⟨hl0, hl1⟩ := win_chance_lcb_bounds c
  have hw0' : (0 : ℝ) ≤ (c.win_chance : ℝ) := by exact_mod_cast hw0
  have hw1' : (c.win_chance : ℝ) ≤ 1 := by exact_mod_cast hw1
  have hp1' : (0 : ℝ) ≤ (c.policy : ℝ) := by exact_mod_cast hp1
  have hp2' : (c.policy : ℝ) ≤ 1 := by exact_mod_cast hp2
  refine ⟨⟨?_, ?_⟩, ⟨?_, ?_⟩, ⟨?_, ?_⟩⟩
  · exact pyInt_ge (n := 0) (by push_cast; nlinarith)
  · exact pyInt_le (n := 10000) (by push_cast; nlinarith)
  · exact pyInt_ge (n := 0) (by push_cast; nlinarith)
  · exact pyInt_le (n := 10000) (by push_cast; nlinarith)
  · exact pyInt_ge (n := -4900) (by push_cast; nlinarith)
  · exact pyInt_le (n := 10000) (by push_cast; nlinarith)

/-- Witness for the amended C5 at a concrete candidate (`color = 1`,
`value = 0`, `policy = 1/2`, `visits = 0`). -/
theorem lz_fields_amended_witness :
    ((⟨(0, 0), 1, 0, 0, 1 / 2, 0, []⟩ : Candidate).color = 1
      ∨ (⟨(0, 0), 1, 0, 0, 1 / 2, 0, []⟩ : Candidate).color = -1)
    ∧ (0 ≤ lzWinrateField ⟨(0, 0), 1, 0, 0, 1 / 2, 0, []⟩
        ∧ lzWinrateField ⟨(0, 0), 1, 0, 0, 1 / 2, 0, []⟩ ≤ 10000)
    ∧ (-4900 ≤ lzLcbField ⟨(0, 0), 1, 0, 0, 1 / 2, 0, []⟩
        ∧ lzLcbField ⟨(0, 0), 1, 0, 0, 1 / 2, 0, []⟩ ≤ 10000) := by
  have h := lz_fields_amended ⟨(0, 0), 1, 0, 0, 1 / 2, 0, []⟩
    (Or.inl rfl) (by norm_num) (by norm_num) (by norm_num) (by norm_num)
  exact ⟨Or.inl rfl, h.1, h.2.2⟩

/-- Counterexample to C5 as stated: the candidate with `value = -1`,
`color = +1`, `visits = 0`, `policy = 1/2` has value in `[-1, 1]`, yet its
LeelaZero `lcb` field is `-4900`, outside `0..10000`. -/
theorem lz_lcb_negative_cex :
    (-1 ≤ (⟨(0, 0), 1, 0, 0, 1 / 2, -1, []⟩ : Candidate).value
      ∧ (⟨(0, 0), 1, 0, 0, 1 / 2, -1, []⟩ : Candidate).value ≤ 1)
    ∧ lzLcbField ⟨(0, 0), 1, 0, 0, 1 / 2, -1, []⟩ = -4900
    ∧ ¬ (0 ≤ lzLcbField ⟨(0, 0), 1, 0, 0, 1 / 2, -1, []⟩) := by
  have hw : (⟨(0, 0), 1, 0, 0, 1 / 2, -1, []⟩ : Candidate).win_chance = 0 := by
    rw [Candidate.win_chance]
    norm_num
  have hs : Real.sqrt (((⟨(0, 0), 1, 0, 0, 1 / 2, -1, []⟩ : Candidate).visits : ℝ) + 1) = 1 := by
    norm_num [Real.sqrt_one]
  have hlcb : (⟨(0, 0), 1, 0, 0, 1 / 2, -1, []⟩ : Candidate).win_chance_lcb = -0.49 := by
    rw [Candidate.win_chance_lcb, hw, hs]
    norm_num
  have hval : lzLcbField ⟨(0, 0), 1, 0, 0, 1 / 2, -1, []⟩ = -4900 := by
    rw [lzLcbField, hlcb, pyInt]
    rw [if_neg (by norm_num)]
    norm_num
  exact ⟨⟨by norm_num, by norm_num⟩, hval, by rw [hval]; norm_num⟩

/-- C6 (code bug evidence): `"quit"` and `"lz-analyze"` are listed by
`list_commands`, yet `known_command` answers `"false"` for them; and the
unlisted spelling `"lz_analyze"` is answered `"true"`. -/
theorem known_command_list_divergence :
    "quit".toList ∈ listCommandsNames
    ∧ knownCommandMessage "quit".toList = "false".toList
    ∧ "lz-analyze".toList ∈ listCommandsNames
    ∧ knownCommandMessage "lz-analyze".toList = "false".toList
    ∧ "lz_analyze".toList ∉ listCommandsNames
    ∧ knownCommandMessage "lz_analyze".toList = "true".toList := by
  decide

/-! ### Sorting and evaluate-pipeline lemmas (C1) -/

theorem insertLe_perm {α : Type} (le : α → α → Bool) (a : α) (xs : List α) :
    (insertLe le a xs).Perm (a :: xs) := by
  induction xs with
  | nil => simp [insertLe]
  | cons b bs ih =>
    rw [insertLe]
    split_ifs
    · exact List.Perm.refl _
    · exact (ih.cons b).trans (List.Perm.swap a b bs)

theorem sortLe_perm {α : Type} (le : α → α → Bool) (xs : List α) :
    (sortLe le xs).Perm xs := by
  induction xs with
  | nil => exact List.Perm.refl _
  | cons a as ih =>
    rw [sortLe]
    exact (insertLe_perm le a (sortLe le as)).trans (ih.cons a)

theorem is_valid_position_PASS (w h : ℤ) : is_valid_position PASS w h = false := by
  simp [is_valid_position, PASS]

/-- The result of `Player.evaluate` is a permutation of the pipeline output
before the final sort. -/
theorem evaluate_perm {M : BoardModel} (p : PState M) (raw : List Candidate)
    (passCand : Candidate) (crit : Criterion)
    (lcbLe : Candidate → Candidate → Bool) :
    (Player.evaluate p raw passCand crit lcbLe).Perm
      (let cands1 := if p.superko then
          raw.filter (fun c => ! isSuperkoMove p c.pos c.color) else raw
       let cands2 := if cands1.isEmpty then [passCand] else cands1
       if p.rule = RULE_COM then
         cands2.map (fun c =>
           if ¬ is_valid_position c.pos M.width M.height then
             { c with pos := getCleanupPosition p c.color }
           else c)
       else cands2) := by
  unfold Player.evaluate
  cases crit
  · exact sortLe_perm _ _
  · exact sortLe_perm _ _

/-- C1 amended: with `superko = true`, every candidate returned by
`Player.evaluate` is either not a superko move or (under the Computer rule
only) carries the dead-stone cleanup position, which is substituted without
a superko re-check; if the superko filter removes every raw candidate the
returned list is exactly the one pass candidate, whose position is `PASS`
except under the Computer rule, where it is the cleanup position; and under
the Computer rule every returned candidate with an invalid position carries
the cleanup position. -/
theorem player_evaluate_superko_amended {M : BoardModel} (p : PState M)
    (raw : List Candidate) (passCand : Candidate) (crit : Criterion)
    (lcbLe : Candidate → Candidate → Bool)
    (hsk : p.superko = true) (hpass : passCand.pos = PASS) :
    (∀ c ∈ Player.evaluate p raw passCand crit lcbLe,
        isSuperkoMove p c.pos c.color = false
        ∨ (p.rule = RULE_COM ∧ c.pos = getCleanupPosition p c.color))
    ∧ ((raw.filter (fun c => ! isSuperkoMove p c.pos c.color)).isEmpty = true →
        Player.evaluate p raw passCand crit lcbLe =
          [if p.rule = RULE_COM then
             { passCand with pos := getCleanupPosition p passCand.color }
           else passCand])
    ∧ (p.rule = RULE_COM →
        ∀ c ∈ Player.evaluate p raw passCand crit lcbLe,
          is_valid_position c.pos M.width M.height = false →
            c.pos = getCleanupPosition p c.color) := by
  have hperm := evaluate_perm p raw passCand crit lcbLe
  simp only [hsk, if_true] at hperm
  set cands1 := raw.filter (fun c => ! isSuperkoMove p c.pos c.color) with hc1
  set cands2 := (if cands1.isEmpty then [passCand] else cands1) with hc2
  have hmem2 : ∀ c ∈ cands2, isSuperkoMove p c.pos c.color = false := by
    intro c hc
    rw [hc2] at hc
    split_ifs at hc with he
    · simp only [List.mem_singleton] at hc
      subst hc
      rw [isSuperkoMove, if_pos]
      rw [hpass, is_valid_position_PASS]
      simp
    · rw [hc1] at hc
      have := List.of_mem_filter hc
      simpa using this
  refine ⟨?_, ?_, ?_⟩
  · intro c hc
    have hc3 := hperm.mem_iff.mp hc
    split_ifs at hc3 with hcom
    · simp only [List.mem_map] at hc3
      obtain ⟨c', hc', heq⟩ := hc3
      by_cases hv : is_valid_position c'.pos M.width M.height = true
      · rw [if_neg (by simp [hv])] at heq
        subst heq
        exact Or.inl (hmem2 c' hc')
      · rw [if_pos (by simpa using hv)] at heq
        subst heq
        exact Or.inr ⟨hcom, rfl⟩
    · exact Or.inl (hmem2 c hc3)
  · intro he
    have h2 : cands2 = [passCand] := by rw [hc2, if_pos he]
    rw [h2] at hperm
    split_ifs at hperm with hcom
    · rw [List.map_singleton] at hperm
      rw [if_pos (by rw [hpass, is_valid_position_PASS]; simp)] at hperm
      rw [List.perm_singleton] at hperm
      rw [hperm, if_pos hcom]
    · rw [List.perm_singleton] at hperm
      rw [hperm, if_neg hcom]
  · intro hcom c hc hinv
    have hc3 := hperm.mem_iff.mp hc
    rw [if_pos hcom] at hc3
    simp only [List.mem_map] at hc3
    obtain ⟨c', hc', heq⟩ := hc3
    by_cases hv : is_valid_position c'.pos M.width M.height = true
    · rw [if_neg (by simp [hv])] at heq
      subst heq
      rw [hv] at hinv
      exact absurd hinv (by simp)
    · rw [if_pos (by simpa using hv)] at heq
      subst heq
      rfl

/-- Counterexample to C1 as stated: in `cexState` (Computer rule, superko
on) the superko filter removes every raw candidate, yet the returned list
contains no Pass candidate — the pass fallback's position is replaced by
the cleanup position `(1, 0)`, and that substituted move is itself a
superko repetition. -/
theorem player_evaluate_superko_claim_false :
    cexState.superko = true
    ∧ ([cexRawCand].filter
        (fun c => ! isSuperkoMove cexState c.pos c.color)).isEmpty = true
    ∧ Player.evaluate cexState [cexRawCand] cexPassCand Criterion.lcb
        (fun _ _ => true) = [⟨(1, 0), 1, 0, 0, 0, 0, []⟩]
    ∧ (∀ c ∈ Player.evaluate cexState [cexRawCand] cexPassCand Criterion.lcb
        (fun _ _ => true), c.pos ≠ PASS)
    ∧ isSuperkoMove cexState (1, 0) 1 = true := by
  decide

/-- Witness for the amended C1 at the concrete instance `cexState`. -/
theorem player_evaluate_superko_amended_witness :
    cexState.superko = true ∧ cexPassCand.pos = PASS
    ∧ (∀ c ∈ Player.evaluate cexState [cexRawCand] cexPassCand Criterion.lcb
          (fun _ _ => true),
        isSuperkoMove cexState c.pos c.color = false
        ∨ (cexState.rule = RULE_COM
            ∧ c.pos = getCleanupPosition cexState c.color)) := by
  have h := player_evaluate_superko_amended cexState [cexRawCand] cexPassCand
    Criterion.lcb (fun _ _ => true) rfl rfl
  exact ⟨rfl, rfl, h.1⟩

/-! ### Replay and undo lemmas (C10) -/

theorem nativePlay_toMove {M : BoardModel} (b : BState M) (pos : GoPos) :
    (nativePlay b pos).1.toMove = -b.toMove := by
  unfold nativePlay
  split_ifs <;> rfl

theorem replayMoves_append {M : BoardModel} (p : PState M)
    (xs ys : List (GoPos × ℤ)) :
    replayMoves p (xs ++ ys) = replayMoves (replayMoves p xs) ys := by
  induction xs generalizing p with
  | nil => rfl
  | cons m rest ih =>
    cases m with
    | mk pos c =>
      rw [List.cons_append, replayMoves, replayMoves]
      exact ih _

theorem play_board_eq {M : BoardModel} (pos : GoPos) (col : Option ℤ)
    {p q : PState M} (h : p.board = q.board) :
    (Player.play p pos col).1.board = (Player.play q pos col).1.board := by
  simp only [Player.play, h]

theorem replay_board_eq {M : BoardModel} (ms : List (GoPos × ℤ))
    {p q : PState M} (h : p.board = q.board) :
    (replayMoves p ms).board = (replayMoves q ms).board := by
  induction ms generalizing p q with
  | nil => simpa [replayMoves] using h
  | cons m rest ih =>
    cases m with
    | mk pos c =>
      rw [replayMoves, replayMoves]
      exact ih (play_board_eq pos (some c) h)

theorem replay_histories_mono {M : BoardModel} (ms : List (GoPos × ℤ))
    (p : PState M) {x : List ℤ} (hx : x ∈ p.histories) :
    x ∈ (replayMoves p ms).histories := by
  induction ms generalizing p with
  | nil => simpa [replayMoves] using hx
  | cons m rest ih =>
    cases m with
    | mk pos c =>
      rw [replayMoves]
      exact ih _ (List.mem_cons_of_mem _ hx)

theorem play_toMove_cases {M : BoardModel} (p : PState M) (pos : GoPos)
    (col : Option ℤ) :
    (Player.play p pos col).1.board.toMove = -p.board.toMove
    ∨ (Player.play p pos col).1.board.toMove = p.board.toMove := by
  have heq : (Player.play p pos col).1.board.toMove =
      -(if p.board.toMove ≠ col.getD p.board.toMove
         then (nativePlay p.board PASS).1 else p.board).toMove := by
    show (nativePlay (if p.board.toMove ≠ col.getD p.board.toMove
        then (nativePlay p.board PASS).1 else p.board) pos).1.toMove = _
    rw [nativePlay_toMove]
  rw [heq]
  split_ifs
  · rw [nativePlay_toMove]
    right
    ring
  · left
    rfl

theorem play_toMove_pm {M : BoardModel} (p : PState M) (pos : GoPos)
    (col : Option ℤ)
    (h : p.board.toMove = 1 ∨ p.board.toMove = -1) :
    (Player.play p pos col).1.board.toMove = 1
    ∨ (Player.play p pos col).1.board.toMove = -1 := by
  rcases play_toMove_cases p pos col with h1 | h1 <;> rcases h with h | h <;>
    rw [h1, h] <;> omega

theorem replay_toMove_pm {M : BoardModel} (ms : List (GoPos × ℤ))
    (p : PState M) (h : p.board.toMove = 1 ∨ p.board.toMove = -1) :
    (replayMoves p ms).board.toMove = 1
    ∨ (replayMoves p ms).board.toMove = -1 := by
  induction ms generalizing p with
  | nil => simpa [replayMoves] using h
  | cons m rest ih =>
    cases m with
    | mk pos c =>
      rw [replayMoves]
      exact ih _ (play_toMove_pm p pos (some c) h)

theorem play_stones_final {M : BoardModel} (p : PState M) (pos : GoPos) (c : ℤ)
    (hpm : p.board.toMove = 1 ∨ p.board.toMove = -1)
    (hc : c = 1 ∨ c = -1)
    (hv : is_valid_position pos M.width M.height = true)
    (hcap : 0 ≤ M.capturedOf p.board.stones pos c) :
    (Player.play p pos (some c)).1.board.stones =
      M.playStone p.board.stones pos c := by
  show (nativePlay (if p.board.toMove ≠ (some c).getD p.board.toMove
      then (nativePlay p.board PASS).1 else p.board) pos).1.stones = _
  have hb1 : (if p.board.toMove ≠ (some c).getD p.board.toMove
      then (nativePlay p.board PASS).1 else p.board) = ⟨c, p.board.stones⟩ := by
    simp only [Option.getD]
    split_ifs with hne
    · rw [nativePlay]
      rw [if_neg (by rw [is_valid_position_PASS]; simp)]
      have htm : -p.board.toMove = c := by
        rcases hpm with h | h <;> rcases hc with h2 | h2 <;> omega
      rw [htm]
    · push_neg at hne
      rw [← hne]
  rw [hb1]
  rw [nativePlay]
  rw [if_pos hv]
  dsimp only
  rw [if_pos hcap]

/-- C10: `Player.initialize` zeroes `turn`, `value` and the move/captured
counters but leaves `histories` unchanged; consequently, after the GTP
`undo` of the last (legal, on-board) move, the fingerprint of the undone
position is still in `histories` and `is_superko_move` still reports the
undone move as a superko repetition. -/
theorem initialize_histories_undo_superko {M : BoardModel} (rule : ℕ)
    (sk : Bool) (ms : List (GoPos × ℤ)) (pos : GoPos) (c : ℤ)
    (hc : c = BLACK ∨ c = WHITE)
    (hv : is_valid_position pos M.width M.height = true)
    (hcap : 0 ≤ M.capturedOf
        (replayMoves (freshPlayer M rule sk) ms).board.stones pos c) :
    (∀ p : PState M,
        ( Player.initialize p).histories = p.histories
        ∧ ( Player.initialize p).turn = 0
        ∧ ( Player.initialize p).value = 0
        ∧ ( Player.initialize p).moves0 = 0 ∧ ( Player.initialize p).moves1 = 0
        ∧ ( Player.initialize p).captureds0 = 0
        ∧ ( Player.initialize p).captureds1 = 0)
    ∧ M.patterns
        (replayMoves (freshPlayer M rule sk) (ms ++ [(pos, c)])).board.stones
      ∈ (undoPlayer (replayMoves (freshPlayer M rule sk) (ms ++ [(pos, c)]))
          (ms ++ [(pos, c)])).histories
    ∧ isSuperkoMove
        (undoPlayer (replayMoves (freshPlayer M rule sk) (ms ++ [(pos, c)]))
          (ms ++ [(pos, c)])) pos c = true := by
  have hc' : c = 1 ∨ c = -1 := by
    rcases hc with h | h
    · exact Or.inl h
    · exact Or.inr h
  have happ : replayMoves (freshPlayer M rule sk) (ms ++ [(pos, c)]) =
      (Player.play (replayMoves (freshPlayer M rule sk) ms) pos (some c)).1 := by
    rw [replayMoves_append]
    rfl
  have hundo : undoPlayer
      (replayMoves (freshPlayer M rule sk) (ms ++ [(pos, c)]))
      (ms ++ [(pos, c)]) =
      replayMoves ( Player.initialize
        (replayMoves (freshPlayer M rule sk) (ms ++ [(pos, c)]))) ms := by
    rw [undoPlayer, List.dropLast_concat]
  have hmem : M.patterns
      (replayMoves (freshPlayer M rule sk) (ms ++ [(pos, c)])).board.stones
      ∈ (replayMoves (freshPlayer M rule sk) (ms ++ [(pos, c)])).histories := by
    rw [happ]
    exact List.mem_cons_self _ _
  have hb : (replayMoves ( Player.initialize
      (replayMoves (freshPlayer M rule sk) (ms ++ [(pos, c)]))) ms).board =
      (replayMoves (freshPlayer M rule sk) ms).board :=
    replay_board_eq ms rfl
  have hhist : M.patterns
      (replayMoves (freshPlayer M rule sk) (ms ++ [(pos, c)])).board.stones
      ∈ (replayMoves ( Player.initialize
          (replayMoves (freshPlayer M rule sk) (ms ++ [(pos, c)]))) ms).histories :=
    replay_histories_mono ms _ hmem
  have hpm : (replayMoves (freshPlayer M rule sk) ms).board.toMove = 1
      ∨ (replayMoves (freshPlayer M rule sk) ms).board.toMove = -1 :=
    replay_toMove_pm ms _ (Or.inl rfl)
  have hst : (replayMoves (freshPlayer M rule sk) (ms ++ [(pos, c)])).board.stones =
      M.playStone (replayMoves (freshPlayer M rule sk) ms).board.stones pos c := by
    rw [happ]
    exact play_stones_final _ pos c hpm hc' hv hcap
  refine ⟨fun p => ⟨rfl, rfl, rfl, rfl, rfl, rfl, rfl⟩, ?_, ?_⟩
  · rw [hundo]
    exact hhist
  · rw [hundo]
    rw [isSuperkoMove, if_neg (by simp [hv])]
    rw [decide_eq_true_eq]
    rw [hb, ← hst]
    exact hhist

/-- Witness for C10 over the concrete model `cexModel`: undoing the single
move `((0,0), Black)` still reports it as a superko repetition. -/
theorem initialize_histories_undo_superko_witness :
    ((1 : ℤ) = BLACK ∨ (1 : ℤ) = WHITE)
    ∧ is_valid_position (0, 0) cexModel.width cexModel.height = true
    ∧ isSuperkoMove
        (undoPlayer (replayMoves (freshPlayer cexModel 0 true) [((0, 0), 1)])
          [((0, 0), 1)]) (0, 0) 1 = true := by
  have h := initialize_histories_undo_superko (M := cexModel) 0 true []
    (0, 0) 1 (Or.inl rfl) (by decide) (by decide)
  have h3 := h.2.2
  rw [List.nil_append] at h3
  exact ⟨Or.inl rfl, by decide, h3⟩

/-! ### Character lemmas for the SGF roundtrip (C7) -/

theorem char_toNat_inj {a b : Char} (h : a.toNat = b.toNat) : a = b :=
  Char.ext (UInt32.ext h)

theorem char_ne_of_toNat_ne {a b : Char} (h : a.toNat ≠ b.toNat) : a ≠ b :=
  fun he => h (he ▸ rfl)

theorem isWhitespace_eq_false_of_ge {c : Char} (h : 48 ≤ c.toNat) :
    c.isWhitespace = false := by
  have h1 : c ≠ ' ' := char_ne_of_toNat_ne (by intro he; rw [he] at h; exact absurd h (by decide))
  have h2 : c ≠ '\t' := char_ne_of_toNat_ne (by intro he; rw [he] at h; exact absurd h (by decide))
  have h3 : c ≠ '\r' := char_ne_of_toNat_ne (by intro he; rw [he] at h; exact absurd h (by decide))
  have h4 : c ≠ '\n' := char_ne_of_toNat_ne (by intro he; rw [he] at h; exact absurd h (by decide))
  simp [Char.isWhitespace, h1, h2, h3, h4]

theorem charUpper_of_lc {c : Char} (h : 97 ≤ c.toNat ∧ c.toNat ≤ 122) :
    (charUpper c).toNat = c.toNat - 32 := by
  rw [charUpper, if_pos h]
  exact toNat_ofNat_of_valid (isValidChar_of_lt (by omega))

theorem charUpper_of_digit_range {c : Char} (h : c.toNat < 97) : charUpper c = c := by
  rw [charUpper, if_neg (by omega)]

theorem charLower_charUpper_of_lcKey {c : Char} (h : lcKeyChar c = true) :
    charLower (charUpper c) = c := by
  simp only [lcKeyChar, Bool.or_eq_true, Bool.and_eq_true, decide_eq_true_eq] at h
  rcases h with h | h
  · have hu : (charUpper c).toNat = c.toNat - 32 := charUpper_of_lc (by omega)
    rw [charLower, if_pos (by omega)]
    apply char_toNat_inj
    rw [toNat_ofNat_of_valid (isValidChar_of_lt (by omega))]
    omega
  · rw [charUpper_of_digit_range (by omega)]
    rw [charLower, if_neg (by omega)]

theorem charLower_of_lcKey {c : Char} (h : lcKeyChar c = true) : charLower c = c := by
  simp only [lcKeyChar, Bool.or_eq_true, Bool.and_eq_true, decide_eq_true_eq] at h
  rw [charLower, if_neg (by omega)]

theorem strLower_strUpper_of_keyWf {k : List Char} (h : sgfKeyWf k = true) :
    strLower (strUpper k) = k := by
  simp only [sgfKeyWf, List.all_eq_true] at h
  induction k with
  | nil => rfl
  | cons c cs ih =>
    simp only [strUpper, strLower, List.map_cons, List.cons.injEq]
    constructor
    · exact charLower_charUpper_of_lcKey (h c (by simp))
    · have := ih (fun x hx => h x (by simp [hx]))
      simpa [strLower, strUpper] using this

theorem strLower_of_keyWf {k : List Char} (h : sgfKeyWf k = true) :
    strLower k = k := by
  simp only [sgfKeyWf, List.all_eq_true] at h
  induction k with
  | nil => rfl
  | cons c cs ih =>
    simp only [strLower, List.map_cons, List.cons.injEq]
    constructor
    · exact charLower_of_lcKey (h c (by simp))
    · have := ih (fun x hx => h x (by simp [hx]))
      simpa [strLower] using this

/-- State-1 name characters: an upper-cased well-formed key character is
none of `)`, `;`, `[` and is not whitespace. -/
theorem upper_key_char_ok {c : Char} (h : lcKeyChar c = true) :
    charUpper c ≠ ')' ∧ charUpper c ≠ ';' ∧ charUpper c ≠ '['
    ∧ (charUpper c).isWhitespace = false := by
  simp only [lcKeyChar, Bool.or_eq_true, Bool.and_eq_true, decide_eq_true_eq] at h
  have hrange : (65 ≤ (charUpper c).toNat ∧ (charUpper c).toNat ≤ 90)
      ∨ (48 ≤ (charUpper c).toNat ∧ (charUpper c).toNat ≤ 57) := by
    rcases h with h | h
    · left; rw [charUpper_of_lc (by omega)]; omega
    · right; rw [charUpper_of_digit_range (by omega)]; omega
  refine ⟨?_, ?_, ?_, isWhitespace_eq_false_of_ge (by rcases hrange with h1 | h1 <;> omega)⟩
  · exact char_ne_of_toNat_ne (by intro he; rw [he] at hrange; revert hrange; decide)
  · exact char_ne_of_toNat_ne (by intro he; rw [he] at hrange; revert hrange; decide)
  · exact char_ne_of_toNat_ne (by intro he; rw [he] at hrange; revert hrange; decide)

/-! ### SGF state-machine lemmas (C7) -/

theorem parseSgf_close (rest : List Char) (vl : List SgfDict) (name value : List Char) :
    parseSgfAux (')' :: rest) vl name value false false = some vl.reverse := rfl

theorem parseSgf_semi (rest : List Char) (vl : List SgfDict) (name value : List Char) :
    parseSgfAux (';' :: rest) vl name value false false
      = parseSgfAux rest ([] :: vl) [] [] false false := rfl

theorem parseSgf_open_value (rest : List Char) (vl : List SgfDict) (name value : List Char) :
    parseSgfAux ('[' :: rest) vl name value false false
      = parseSgfAux rest vl name value false true := rfl

theorem parseSgf_close_value (rest : List Char) (d : SgfDict) (ds : List SgfDict)
    (name value : List Char) :
    parseSgfAux (']' :: rest) (d :: ds) name value false true
      = parseSgfAux rest (dictSet d (strLower name) value :: ds) [] [] false false := rfl

theorem parseSgf_name_scan (ns : List Char)
    (h : ∀ ch ∈ ns, ch ≠ ')' ∧ ch ≠ ';' ∧ ch ≠ '[' ∧ ch.isWhitespace = false) :
    ∀ (rest : List Char) (vl : List SgfDict) (name value : List Char),
    parseSgfAux (ns ++ rest) vl name value false false
      = parseSgfAux rest vl (name ++ ns) value false false := by
  induction ns with
  | nil => intro rest vl name value; simp
  | cons ch cs ih =>
    intro rest vl name value
    obtain ⟨h1, h2, h3, h4⟩ := h ch (by simp)
    rw [List.cons_append]; simp only [parseSgfAux]
    rw [if_pos trivial, if_neg h1, if_neg h2, if_neg h3, if_neg (by simp [h4])]
    rw [ih (fun x hx => h x (by simp [hx])) rest vl (name ++ [ch]) value]
    rw [List.append_assoc]
    rfl

theorem parseSgf_val_char {ch : Char} (h1 : ch ≠ ']') (h2 : ch ≠ '\\')
    (rest : List Char) (vl : List SgfDict) (name value : List Char) :
    parseSgfAux (ch :: rest) vl name value false true
      = parseSgfAux rest vl name (value ++ [ch]) false true := by
  simp only [parseSgfAux]
  rw [if_neg (by simp), if_neg (by simp [h1]), if_neg (by simp [h2])]

theorem parseSgf_escaped_char (ch : Char) (rest : List Char) (vl : List SgfDict)
    (name value : List Char) :
    parseSgfAux (ch :: rest) vl name value true true
      = parseSgfAux rest vl name (value ++ [ch]) false true := by
  simp only [parseSgfAux]
  rw [if_neg (by simp), if_neg (by simp), if_neg (by simp)]

theorem parseSgf_backslash (rest : List Char) (vl : List SgfDict)
    (name value : List Char) :
    parseSgfAux ('\\' :: rest) vl name value false true
      = parseSgfAux rest vl name value true true := rfl

theorem parseSgf_value_scan (vs : List Char)
    (h : ∀ ch ∈ vs, ch ≠ ']' ∧ ch ≠ '\\') :
    ∀ (rest : List Char) (vl : List SgfDict) (name value : List Char),
    parseSgfAux (vs ++ rest) vl name value false true
      = parseSgfAux rest vl name (value ++ vs) false true := by
  induction vs with
  | nil => intro rest vl name value; simp
  | cons ch cs ih =>
    intro rest vl name value
    obtain ⟨h1, h2⟩ := h ch (by simp)
    rw [List.cons_append]
    rw [parseSgf_val_char h1 h2]
    rw [ih (fun x hx => h x (by simp [hx]))]
    rw [List.append_assoc]
    rfl

theorem parseSgf_escape_scan (ms : List Char) :
    ∀ (rest : List Char) (vl : List SgfDict) (name value : List Char),
    parseSgfAux (escapeValue ms ++ rest) vl name value false true
      = parseSgfAux rest vl name (value ++ ms) false true := by
  induction ms with
  | nil => intro rest vl name value; simp [escapeValue]
  | cons ch cs ih =>
    intro rest vl name value
    have hesc : escapeValue (ch :: cs) =
        (if ch = '\\' then ['\\', '\\'] else if ch = ']' then ['\\', ']'] else [ch])
          ++ escapeValue cs := by
      simp [escapeValue]
    rw [hesc, List.append_assoc]
    by_cases hbs : ch = '\\'
    · subst hbs
      rw [if_pos rfl]
      rw [List.cons_append, List.cons_append, List.nil_append]
      rw [parseSgf_backslash, parseSgf_escaped_char]
      rw [ih]
      rw [List.append_assoc]
      rfl
    · by_cases hrb : ch = ']'
      · subst hrb
        rw [if_neg hbs, if_pos rfl]
        rw [List.cons_append, List.cons_append, List.nil_append]
        rw [parseSgf_backslash, parseSgf_escaped_char]
        rw [ih]
        rw [List.append_assoc]
        rfl
      · rw [if_neg hbs, if_neg hrb]
        rw [List.singleton_append]
        rw [parseSgf_val_char hrb hbs]
        rw [ih]
        rw [List.append_assoc]
        rfl

/-! ### Dictionary lemmas (C7) -/

theorem mem_dictSet {d : SgfDict} {k v : List Char} {e : List Char × List Char}
    (h : e ∈ dictSet d k v) : e ∈ d ∨ e = (k, v) := by
  induction d with
  | nil =>
    right
    simpa [dictSet] using h
  | cons f fs ih =>
    rw [dictSet] at h
    split_ifs at h with hk
    · rcases List.mem_cons.mp h with he | he
      · right; exact he
      · left; exact List.mem_cons_of_mem _ he
    · rcases List.mem_cons.mp h with he | he
      · left; rw [he]; exact List.mem_cons_self _ _
      · rcases ih he with h1 | h1
        · left; exact List.mem_cons_of_mem _ h1
        · right; exact h1

theorem mem_keys_dictSet {d : SgfDict} {k v x : List Char} :
    x ∈ (dictSet d k v).map Prod.fst ↔ x ∈ d.map Prod.fst ∨ x = k := by
  induction d with
  | nil => simp [dictSet]
  | cons f fs ih =>
    rw [dictSet]
    split_ifs with hk
    · subst hk
      simp only [List.map_cons, List.mem_cons]
      tauto
    · simp only [List.map_cons, List.mem_cons, ih]
      tauto

theorem nodup_keys_dictSet {d : SgfDict} {k v : List Char}
    (h : (d.map Prod.fst).Nodup) : ((dictSet d k v).map Prod.fst).Nodup := by
  induction d with
  | nil => simp [dictSet]
  | cons f fs ih =>
    rw [List.map_cons, List.nodup_cons] at h
    rw [dictSet]
    split_ifs with hk
    · rw [List.map_cons, List.nodup_cons]
      exact ⟨by rw [← hk]; exact h.1, h.2⟩
    · rw [List.map_cons, List.nodup_cons]
      refine ⟨?_, ih h.2⟩
      rw [mem_keys_dictSet]
      push_neg
      exact ⟨h.1, hk⟩

theorem mem_dictSet_self (d : SgfDict) (k v : List Char) : (k, v) ∈ dictSet d k v := by
  induction d with
  | nil => simp [dictSet]
  | cons f fs ih =>
    rw [dictSet]
    split_ifs with hk
    · exact List.mem_cons_self _ _
    · exact List.mem_cons_of_mem _ ih

theorem dictHas_of_mem {d : SgfDict} {k v : List Char} (h : (k, v) ∈ d) :
    dictHas d k = true := by
  rw [dictHas, List.any_eq_true]
  exact ⟨(k, v), h, by simp⟩

theorem dictGet_eq_some_of_nodup {d : SgfDict} {k v : List Char}
    (hnd : (d.map Prod.fst).Nodup) (hmem : (k, v) ∈ d) :
    dictGet d k = some v := by
  induction d with
  | nil => cases hmem
  | cons f fs ih =>
    rw [List.map_cons, List.nodup_cons] at hnd
    rcases List.mem_cons.mp hmem with he | he
    · rw [← he]
      simp [dictGet]
    · have hk : f.1 ≠ k := by
        intro hkk
        exact hnd.1 (by
          rw [hkk]
          exact List.mem_map.mpr ⟨(k, v), he, rfl⟩)
      rw [dictGet] at *
      rw [List.find?_cons_of_neg _ (by simp [hk])]
      exact ih hnd.2 he

theorem dictSet_fresh {d : SgfDict} {k v : List Char} (h : ∀ e ∈ d, e.1 ≠ k) :
    dictSet d k v = d ++ [(k, v)] := by
  induction d with
  | nil => rfl
  | cons f fs ih =>
    rw [dictSet, if_neg (h f (List.mem_cons_self _ _))]
    rw [ih (fun e he => h e (List.mem_cons_of_mem _ he))]
    rfl

theorem foldl_dictSet_eq_append (f : List Char → List Char) :
    ∀ (d acc : SgfDict), (∀ e ∈ d, f e.1 = e.1) → (d.map Prod.fst).Nodup →
      (∀ e ∈ d, ∀ e' ∈ acc, e'.1 ≠ e.1) →
      d.foldl (fun a e => dictSet a (f e.1) e.2) acc = acc ++ d := by
  intro d
  induction d with
  | nil =>
    intro acc _ _ _
    simp
  | cons e es ih =>
    intro acc hf hnd hdisj
    rw [List.foldl_cons, hf e (List.mem_cons_self _ _)]
    rw [dictSet_fresh (fun e' he' => hdisj e (List.mem_cons_self _ _) e' he')]
    rw [List.map_cons, List.nodup_cons] at hnd
    rw [ih (acc ++ [(e.1, e.2)])
      (fun x hx => hf x (List.mem_cons_of_mem _ hx))
      hnd.2
      (fun x hx e' he' => by
        rcases List.mem_append.mp he' with h1 | h1
        · exact hdisj x (List.mem_cons_of_mem _ hx) e' h1
        · have he1 : e' = (e.1, e.2) := by simpa using h1
          rw [he1]
          intro hcon
          exact hnd.1 (by rw [hcon]; exact List.mem_map.mpr ⟨x, hx, rfl⟩))]
    simp

/-! ### Chunk-consumption lemmas (C7) -/

theorem parseSgf_name_char {ch : Char} (h1 : ch ≠ ')') (h2 : ch ≠ ';')
    (h3 : ch ≠ '[') (h4 : ch.isWhitespace = false)
    (rest : List Char) (vl : List SgfDict) (name value : List Char) :
    parseSgfAux (ch :: rest) vl name value false false
      = parseSgfAux rest vl (name ++ [ch]) value false false := by
  simp only [parseSgfAux]
  rw [if_pos trivial, if_neg h1, if_neg h2, if_neg h3, if_neg (by simp [h4])]

theorem parseSgf_one_prop (k v : List Char) (rest : List Char) (d : SgfDict)
    (ds : List SgfDict) (hk : sgfKeyWf k = true) (hv : sgfValWf v = true) :
    parseSgfAux ((strUpper k ++ ('[' :: (v ++ [']']))) ++ rest) (d :: ds) [] [] false false
      = parseSgfAux rest (dictSet d k v :: ds) [] [] false false := by
  have hns : ∀ ch ∈ strUpper k,
      ch ≠ ')' ∧ ch ≠ ';' ∧ ch ≠ '[' ∧ ch.isWhitespace = false := by
    intro ch hch
    obtain ⟨c0, hc0, hceq⟩ := List.mem_map.mp hch
    rw [← hceq]
    apply upper_key_char_ok
    rw [sgfKeyWf, List.all_eq_true] at hk
    exact hk c0 hc0
  have hvs : ∀ ch ∈ v, ch ≠ ']' ∧ ch ≠ '\\' := by
    intro ch hch
    rw [sgfValWf, List.all_eq_true] at hv
    have := hv ch hch
    simp only [Bool.and_eq_true, decide_eq_true_eq] at this
    exact this
  rw [List.append_assoc]
  rw [parseSgf_name_scan (strUpper k) hns]
  rw [List.nil_append]
  rw [List.cons_append]
  rw [parseSgf_open_value]
  rw [List.append_assoc]
  rw [parseSgf_value_scan v hvs]
  rw [List.nil_append]
  rw [List.singleton_append]
  rw [parseSgf_close_value]
  rw [strLower_strUpper_of_keyWf hk]

theorem parseSgf_props (ps : SgfDict) (rest : List Char) :
    ∀ (d : SgfDict) (ds : List SgfDict),
    (∀ e ∈ ps, sgfKeyWf e.1 = true) → (∀ e ∈ ps, sgfValWf e.2 = true) →
    parseSgfAux
        ((ps.map (fun e => strUpper e.1 ++ ('[' :: (e.2 ++ [']'])))).flatten ++ rest)
        (d :: ds) [] [] false false
      = parseSgfAux rest
          (ps.foldl (fun acc e => dictSet acc e.1 e.2) d :: ds) [] [] false false := by
  induction ps with
  | nil =>
    intro d ds _ _
    simp
  | cons e es ih =>
    intro d ds hk hv
    rw [List.map_cons, List.flatten_cons, List.append_assoc]
    rw [parseSgf_one_prop e.1 e.2 _ d ds (hk e (List.mem_cons_self _ _))
      (hv e (List.mem_cons_self _ _))]
    rw [List.foldl_cons]
    exact ih _ _ (fun x hx => hk x (List.mem_cons_of_mem _ hx))
      (fun x hx => hv x (List.mem_cons_of_mem _ hx))

theorem parseSgf_move_core (cch : Char) (p : List Char) (rest' : List Char)
    (vl : List SgfDict)
    (hc1 : cch ≠ ')') (hc2 : cch ≠ ';') (hc3 : cch ≠ '[')
    (hc4 : cch.isWhitespace = false)
    (hp : ∀ ch ∈ p, ch ≠ ']' ∧ ch ≠ '\\') :
    parseSgfAux ((';' :: cch :: '[' :: (p ++ [']'])) ++ rest') vl [] [] false false
      = parseSgfAux rest' (dictSet [] (strLower [cch]) p :: vl) [] [] false false := by
  rw [List.cons_append]
  rw [parseSgf_semi]
  rw [List.cons_append]
  rw [parseSgf_name_char hc1 hc2 hc3 hc4]
  rw [List.cons_append]
  rw [parseSgf_open_value]
  rw [List.append_assoc]
  rw [parseSgf_value_scan p hp]
  rw [List.nil_append, List.nil_append]
  rw [List.singleton_append]
  rw [parseSgf_close_value]

theorem coord_char_ok {x : ℤ} (h0 : 0 ≤ x) (h255 : 97 + x ≤ 255) :
    Char.ofNat (97 + x).toNat ≠ ']' ∧ Char.ofNat (97 + x).toNat ≠ '\\' := by
  have ht : (Char.ofNat (97 + x).toNat).toNat = (97 + x).toNat :=
    toNat_ofNat_of_valid (isValidChar_of_lt (by omega))
  have h93 : (']' : Char).toNat = 93 := rfl
  have h92 : ('\\' : Char).toNat = 92 := rfl
  constructor
  · exact char_ne_of_toNat_ne (by rw [ht, h93]; omega)
  · exact char_ne_of_toNat_ne (by rw [ht, h92]; omega)

theorem parseSgf_one_move (size : ℤ) (m : SgfMove) (rest : List Char)
    (vl : List SgfDict)
    (hbyte : is_valid_position m.pos size size = true →
      97 + m.pos.1 ≤ 255 ∧ 97 + m.pos.2 ≤ 255) :
    parseSgfAux (moveChunk size m ++ rest) vl [] [] false false
      = parseSgfAux rest (moveNodeDict size m :: vl) [] [] false false := by
  have hcch : (if m.color = BLACK then 'B' else 'W') = 'B'
      ∨ (if m.color = BLACK then 'B' else 'W') = 'W' := by
    split_ifs <;> simp
  have hc1 : (if m.color = BLACK then 'B' else 'W') ≠ ')' := by
    rcases hcch with h | h <;> rw [h] <;> decide
  have hc2 : (if m.color = BLACK then 'B' else 'W') ≠ ';' := by
    rcases hcch with h | h <;> rw [h] <;> decide
  have hc3 : (if m.color = BLACK then 'B' else 'W') ≠ '[' := by
    rcases hcch with h | h <;> rw [h] <;> decide
  have hc4 : (if m.color = BLACK then 'B' else 'W').isWhitespace = false := by
    rcases hcch with h | h <;> rw [h] <;> decide
  have hkey : strLower [if m.color = BLACK then 'B' else 'W']
      = (if m.color = BLACK then "b".toList else "w".toList) := by
    split_ifs <;> decide
  have hkeyc : (if m.color = BLACK then "b".toList else "w".toList) ≠ "c".toList := by
    split_ifs <;> decide
  have hp : ∀ ch ∈ (if is_valid_position m.pos size size then
      [Char.ofNat (97 + m.pos.1).toNat, Char.ofNat (97 + m.pos.2).toNat]
      else ([] : List Char)), ch ≠ ']' ∧ ch ≠ '\\' := by
    split_ifs with hvv
    · have hb := hbyte hvv
      have hx : 0 ≤ m.pos.1 ∧ 0 ≤ m.pos.2 := by
        simp only [is_valid_position, Bool.and_eq_true, decide_eq_true_eq] at hvv
        exact ⟨hvv.1.1.1, hvv.1.2⟩
      intro ch hch
      rcases List.mem_pair.mp hch with h | h <;> rw [h]
      · exact coord_char_ok hx.1 hb.1
      · exact coord_char_ok hx.2 hb.2
    · intro ch hch
      cases hch
  match hmsg : m.message with
  | none =>
    rw [moveChunk, hmsg]
    rw [parseSgf_move_core _ _ _ _ hc1 hc2 hc3 hc4 hp]
    rw [hkey]
    rw [moveNodeDict, hmsg]
    rfl
  | some msg =>
    rw [moveChunk, hmsg]
    rw [List.append_assoc]
    rw [parseSgf_move_core _ _ _ _ hc1 hc2 hc3 hc4 hp]
    rw [List.cons_append]
    rw [parseSgf_name_char (by decide) (by decide) (by decide) (by decide)]
    rw [List.cons_append]
    rw [parseSgf_open_value]
    rw [List.append_assoc]
    rw [parseSgf_escape_scan msg]
    rw [List.nil_append, List.nil_append]
    rw [List.singleton_append]
    rw [parseSgf_close_value]
    rw [hkey]
    rw [moveNodeDict, hmsg]
    have hstore : dictSet (dictSet []
        (if m.color = BLACK then "b".toList else "w".toList)
        (if is_valid_position m.pos size size then
          [Char.ofNat (97 + m.pos.1).toNat, Char.ofNat (97 + m.pos.2).toNat]
          else []))
        (strLower ['C']) msg
        = [((if m.color = BLACK then "b".toList else "w".toList),
            (if is_valid_position m.pos size size then
              [Char.ofNat (97 + m.pos.1).toNat, Char.ofNat (97 + m.pos.2).toNat]
              else [])), ("c".toList, msg)] := by
      have hsc : strLower ['C'] = "c".toList := by decide
      rw [hsc]
      rw [show dictSet []
          (if m.color = BLACK then "b".toList else "w".toList)
          (if is_valid_position m.pos size size then
            [Char.ofNat (97 + m.pos.1).toNat, Char.ofNat (97 + m.pos.2).toNat]
            else []) = [((if m.color = BLACK then "b".toList else "w".toList),
            (if is_valid_position m.pos size size then
              [Char.ofNat (97 + m.pos.1).toNat, Char.ofNat (97 + m.pos.2).toNat]
              else []))] from rfl]
      rw [dictSet, if_neg hkeyc]
      rfl
    rw [hstore]

theorem parseSgf_moves (size : ℤ) (ms : List SgfMove) (rest : List Char) :
    ∀ (vl : List SgfDict),
    (∀ m ∈ ms, is_valid_position m.pos size size = true →
      97 + m.pos.1 ≤ 255 ∧ 97 + m.pos.2 ≤ 255) →
    parseSgfAux ((ms.map (moveChunk size)).flatten ++ rest) vl [] [] false false
      = parseSgfAux rest ((ms.map (moveNodeDict size)).reverse ++ vl) [] [] false false := by
  induction ms with
  | nil =>
    intro vl _
    simp
  | cons m rest' ih =>
    intro vl hbyte
    rw [List.map_cons, List.flatten_cons, List.append_assoc]
    rw [parseSgf_one_move size m _ vl (hbyte m (List.mem_cons_self _ _))]
    rw [ih _ (fun x hx => hbyte x (List.mem_cons_of_mem _ hx))]
    rw [List.map_cons, List.reverse_cons, List.append_assoc]
    rfl

/-! ### Node decoding and integer-string lemmas (C7) -/

theorem isDigit_ne_signs {c : Char} (h : isDigitChar c = true) : c ≠ '-' ∧ c ≠ '+' := by
  simp only [isDigitChar, Bool.and_eq_true, decide_eq_true_eq] at h
  have h45 : ('-' : Char).toNat = 45 := rfl
  have h43 : ('+' : Char).toNat = 43 := rfl
  exact ⟨char_ne_of_toNat_ne (by rw [h45]; omega),
    char_ne_of_toNat_ne (by rw [h43]; omega)⟩

theorem parseIntChars_natToChars (n : ℕ) :
    parseIntChars (natToChars n) = some (n : ℤ) := by
  obtain ⟨d, ds, hds⟩ := List.exists_cons_of_ne_nil (natToChars_ne_nil n)
  have hall : (natToChars n).all isDigitChar = true := natToChars_all_digits n
  have hd : isDigitChar d = true := by
    rw [hds, List.all_cons, Bool.and_eq_true] at hall
    exact hall.1
  obtain ⟨hm, hp⟩ := isDigit_ne_signs hd
  rw [hds]
  simp only [parseIntChars]
  rw [if_neg hm, if_neg hp]
  rw [if_pos (by rw [← hds]; exact natToChars_all_digits n)]
  rw [← hds, parseDigits_natToChars]

theorem parseIntChars_intToChars (n : ℤ) : parseIntChars (intToChars n) = some n := by
  rw [intToChars]
  split_ifs with hneg
  · obtain ⟨d, ds, hds⟩ := List.exists_cons_of_ne_nil (natToChars_ne_nil (-n).toNat)
    rw [hds]
    simp only [parseIntChars]
    rw [if_pos trivial]
    rw [if_pos ⟨by simp, by rw [← hds]; exact natToChars_all_digits _⟩]
    rw [← hds, parseDigits_natToChars]
    congr 1
    omega
  · rw [parseIntChars_natToChars]
    congr 1
    omega

theorem sgfValWf_intToChars (n : ℤ) : sgfValWf (intToChars n) = true := by
  rw [sgfValWf, List.all_eq_true]
  intro ch hch
  have hd : isDigitChar ch = true ∨ ch = '-' := by
    rw [intToChars] at hch
    split_ifs at hch with h
    · rcases List.mem_cons.mp hch with h1 | h1
      · right; exact h1
      · left
        have := natToChars_all_digits (-n).toNat
        rw [List.all_eq_true] at this
        exact this ch h1
    · left
      have := natToChars_all_digits n.toNat
      rw [List.all_eq_true] at this
      exact this ch hch
  simp only [Bool.and_eq_true, decide_eq_true_eq]
  have h93 : (']' : Char).toNat = 93 := rfl
  have h92 : ('\\' : Char).toNat = 92 := rfl
  rcases hd with h | h
  · simp only [isDigitChar, Bool.and_eq_true, decide_eq_true_eq] at h
    exact ⟨char_ne_of_toNat_ne (by rw [h93]; omega),
      char_ne_of_toNat_ne (by rw [h92]; omega)⟩
  · rw [h]
    exact ⟨by decide, by decide⟩

theorem filterMap_eq_map_of_forall_some {α β : Type} (f : α → Option β) (g : α → β) :
    ∀ l : List α, (∀ x ∈ l, f x = some (g x)) → l.filterMap f = l.map g := by
  intro l
  induction l with
  | nil => intro _; rfl
  | cons a as ih =>
    intro h
    rw [List.filterMap_cons, h a (List.mem_cons_self _ _), List.map_cons,
      ih (fun x hx => h x (List.mem_cons_of_mem _ hx))]

theorem nodeToMove_moveNodeDict (size : ℤ) (m : SgfMove)
    (hbyte : is_valid_position m.pos size size = true →
      97 + m.pos.1 ≤ 255 ∧ 97 + m.pos.2 ≤ 255) :
    nodeToMove size (moveNodeDict size m) = some (normalizeMove size m) := by
  by_cases hvv : is_valid_position m.pos size size = true
  · obtain ⟨hb1, hb2⟩ := hbyte hvv
    have hx0 : 0 ≤ m.pos.1 ∧ 0 ≤ m.pos.2 := by
      simp only [is_valid_position, Bool.and_eq_true, decide_eq_true_eq] at hvv
      exact ⟨hvv.1.1.1, hvv.1.2⟩
    have hc0 : ((Char.ofNat (97 + m.pos.1).toNat).toNat : ℤ) - 97 = m.pos.1 := by
      rw [toNat_ofNat_of_valid (isValidChar_of_lt (by omega))]
      omega
    have hc1 : ((Char.ofNat (97 + m.pos.2).toNat).toNat : ℤ) - 97 = m.pos.2 := by
      rw [toNat_ofNat_of_valid (isValidChar_of_lt (by omega))]
      omega
    have hvv' : is_valid_position (m.pos.1, m.pos.2) size size = true := hvv
    by_cases hcol : m.color = BLACK
    · match hmsg : m.message with
      | none =>
        have hnode : moveNodeDict size m =
            [("b".toList, [Char.ofNat (97 + m.pos.1).toNat,
              Char.ofNat (97 + m.pos.2).toNat])] := by
          simp only [moveNodeDict, hmsg]
          rw [if_pos hcol, if_pos hvv]
        rw [hnode]
        have hstep : nodeToMove size [("b".toList,
            [Char.ofNat (97 + m.pos.1).toNat, Char.ofNat (97 + m.pos.2).toNat])] =
            some ⟨(if ¬ is_valid_position
                (((Char.ofNat (97 + m.pos.1).toNat).toNat : ℤ) - 97,
                 ((Char.ofNat (97 + m.pos.2).toNat).toNat : ℤ) - 97) size size
              then PASS
              else (((Char.ofNat (97 + m.pos.1).toNat).toNat : ℤ) - 97,
                    ((Char.ofNat (97 + m.pos.2).toNat).toNat : ℤ) - 97)),
              BLACK, none⟩ := rfl
        rw [hstep, hc0, hc1]
        rw [if_neg (by simp [hvv'])]
        rw [normalizeMove, if_pos hvv, if_pos hcol, hmsg]
      | some msg =>
        have hnode : moveNodeDict size m =
            [("b".toList, [Char.ofNat (97 + m.pos.1).toNat,
              Char.ofNat (97 + m.pos.2).toNat]), ("c".toList, msg)] := by
          simp only [moveNodeDict, hmsg]
          rw [if_pos hcol, if_pos hvv]
        rw [hnode]
        have hstep : nodeToMove size [("b".toList,
            [Char.ofNat (97 + m.pos.1).toNat, Char.ofNat (97 + m.pos.2).toNat]),
            ("c".toList, msg)] =
            some ⟨(if ¬ is_valid_position
                (((Char.ofNat (97 + m.pos.1).toNat).toNat : ℤ) - 97,
                 ((Char.ofNat (97 + m.pos.2).toNat).toNat : ℤ) - 97) size size
              then PASS
              else (((Char.ofNat (97 + m.pos.1).toNat).toNat : ℤ) - 97,
                    ((Char.ofNat (97 + m.pos.2).toNat).toNat : ℤ) - 97)),
              BLACK, some msg⟩ := rfl
        rw [hstep, hc0, hc1]
        rw [if_neg (by simp [hvv'])]
        rw [normalizeMove, if_pos hvv, if_pos hcol, hmsg]
    · match hmsg : m.message with
      | none =>
        have hnode : moveNodeDict size m =
            [("w".toList, [Char.ofNat (97 + m.pos.1).toNat,
              Char.ofNat (97 + m.pos.2).toNat])] := by
          simp only [moveNodeDict, hmsg]
          rw [if_neg hcol, if_pos hvv]
        rw [hnode]
        have hstep : nodeToMove size [("w".toList,
            [Char.ofNat (97 + m.pos.1).toNat, Char.ofNat (97 + m.pos.2).toNat])] =
            some ⟨(if ¬ is_valid_position
                (((Char.ofNat (97 + m.pos.1).toNat).toNat : ℤ) - 97,
                 ((Char.ofNat (97 + m.pos.2).toNat).toNat : ℤ) - 97) size size
              then PASS
              else (((Char.ofNat (97 + m.pos.1).toNat).toNat : ℤ) - 97,
                    ((Char.ofNat (97 + m.pos.2).toNat).toNat : ℤ) - 97)),
              WHITE, none⟩ := rfl
        rw [hstep, hc0, hc1]
        rw [if_neg (by simp [hvv'])]
        rw [normalizeMove, if_pos hvv, if_neg hcol, hmsg]
      | some msg =>
        have hnode : moveNodeDict size m =
            [("w".toList, [Char.ofNat (97 + m.pos.1).toNat,
              Char.ofNat (97 + m.pos.2).toNat]), ("c".toList, msg)] := by
          simp only [moveNodeDict, hmsg]
          rw [if_neg hcol, if_pos hvv]
        rw [hnode]
        have hstep : nodeToMove size [("w".toList,
            [Char.ofNat (97 + m.pos.1).toNat, Char.ofNat (97 + m.pos.2).toNat]),
            ("c".toList, msg)] =
            some ⟨(if ¬ is_valid_position
                (((Char.ofNat (97 + m.pos.1).toNat).toNat : ℤ) - 97,
                 ((Char.ofNat (97 + m.pos.2).toNat).toNat : ℤ) - 97) size size
              then PASS
              else (((Char.ofNat (97 + m.pos.1).toNat).toNat : ℤ) - 97,
                    ((Char.ofNat (97 + m.pos.2).toNat).toNat : ℤ) - 97)),
              WHITE, some msg⟩ := rfl
        rw [hstep, hc0, hc1]
        rw [if_neg (by simp [hvv'])]
        rw [normalizeMove, if_pos hvv, if_neg hcol, hmsg]
  · have hvvf : is_valid_position m.pos size size = false := by
      simpa using hvv
    by_cases hcol : m.color = BLACK
    · match hmsg : m.message with
      | none =>
        have hnode : moveNodeDict size m = [("b".toList, [])] := by
          simp only [moveNodeDict, hmsg]
          rw [if_pos hcol, if_neg (by simp [hvvf])]
        rw [hnode]
        have hstep : nodeToMove size [("b".toList, ([] : List Char))] =
            some ⟨(if ¬ is_valid_position PASS size size then PASS else PASS),
              BLACK, none⟩ := rfl
        rw [hstep]
        rw [if_pos (by simp [is_valid_position_PASS])]
        rw [normalizeMove, if_neg (by simp [hvvf]), if_pos hcol, hmsg]
      | some msg =>
        have hnode : moveNodeDict size m = [("b".toList, []), ("c".toList, msg)] := by
          simp only [moveNodeDict, hmsg]
          rw [if_pos hcol, if_neg (by simp [hvvf])]
        rw [hnode]
        have hstep : nodeToMove size [("b".toList, ([] : List Char)),
            ("c".toList, msg)] =
            some ⟨(if ¬ is_valid_position PASS size size then PASS else PASS),
              BLACK, some msg⟩ := rfl
        rw [hstep]
        rw [if_pos (by simp [is_valid_position_PASS])]
        rw [normalizeMove, if_neg (by simp [hvvf]), if_pos hcol, hmsg]
    · match hmsg : m.message with
      | none =>
        have hnode : moveNodeDict size m = [("w".toList, [])] := by
          simp only [moveNodeDict, hmsg]
          rw [if_neg hcol, if_neg (by simp [hvvf])]
        rw [hnode]
        have hstep : nodeToMove size [("w".toList, ([] : List Char))] =
            some ⟨(if ¬ is_valid_position PASS size size then PASS else PASS),
              WHITE, none⟩ := rfl
        rw [hstep]
        rw [if_pos (by simp [is_valid_position_PASS])]
        rw [normalizeMove, if_neg (by simp [hvvf]), if_neg hcol, hmsg]
      | some msg =>
        have hnode : moveNodeDict size m = [("w".toList, []), ("c".toList, msg)] := by
          simp only [moveNodeDict, hmsg]
          rw [if_neg hcol, if_neg (by simp [hvvf])]
        rw [hnode]
        have hstep : nodeToMove size [("w".toList, ([] : List Char)),
            ("c".toList, msg)] =
            some ⟨(if ¬ is_valid_position PASS size size then PASS else PASS),
              WHITE, some msg⟩ := rfl
        rw [hstep]
        rw [if_pos (by simp [is_valid_position_PASS])]
        rw [normalizeMove, if_neg (by simp [hvvf]), if_neg hcol, hmsg]

/-! ### Full roundtrip (C7) -/

theorem parseSgfValues_printed (props : SgfDict) (ms : List SgfMove) (n : ℤ)
    (hkeys : ∀ e ∈ props, sgfKeyWf e.1 = true)
    (hvals : ∀ e ∈ props, sgfValWf e.2 = true)
    (hbyte : ∀ m ∈ ms, is_valid_position m.pos n n = true →
      97 + m.pos.1 ≤ 255 ∧ 97 + m.pos.2 ≤ 255) :
    parseSgfValues ('(' :: ';' ::
        ((props.map (fun e => strUpper e.1 ++ ('[' :: (e.2 ++ [']'])))).flatten
          ++ ((ms.map (moveChunk n)).flatten ++ [')'])))
      = some ((props.foldl (fun acc e => dictSet acc e.1 e.2) [])
          :: ms.map (moveNodeDict n)) := by
  rw [parseSgfValues]
  rw [List.dropWhile_cons]
  rw [if_neg (by decide)]
  show parseSgfAux (';' :: _) [] [] [] false false = _
  rw [parseSgf_semi]
  rw [parseSgf_props props _ [] [] hkeys hvals]
  rw [parseSgf_moves n ms _ _ hbyte]
  rw [parseSgf_close]
  rw [List.reverse_append, List.reverse_reverse]
  rfl

/-- C7 amended: for every record whose `sz` property parses to a size of at
most 158, whose property keys are lower-case ASCII letters/digits without
duplicates, and whose property values contain neither `]` nor `\`,
re-parsing `dumps` succeeds and yields a record whose moves equal the
original moves with out-of-board positions rendered as Pass (and any
non-Black colour as White), and whose properties equal the original
properties overridden with `gm = 1`, `ff = 4`, `sz = str(size)` (as a
dictionary, i.e. up to the sorted order `dumps` prints). -/
theorem sgf_roundtrip_amended (r : SgfRecord) (n : ℤ)
    (hsz : r.size = some n) (hn : n ≤ 158)
    (hkeys : ∀ e ∈ r.properties, sgfKeyWf e.1 = true)
    (hvals : ∀ e ∈ r.properties, sgfValWf e.2 = true)
    (hnd : (r.properties.map Prod.fst).Nodup) :
    ∃ s r', recordDumps r = some s ∧ recordParse s = some r'
      ∧ r'.properties.Perm
          (dictSet (dictSet (dictSet r.properties ("gm".toList) ("1".toList))
            ("ff".toList) ("4".toList)) ("sz".toList) (intToChars n))
      ∧ r'.moves = r.moves.map (normalizeMove n) := by
  have hbyte : ∀ m ∈ r.moves, is_valid_position m.pos n n = true →
      97 + m.pos.1 ≤ 255 ∧ 97 + m.pos.2 ≤ 255 := by
    intro m _ hv
    simp only [is_valid_position, Bool.and_eq_true, decide_eq_true_eq] at hv
    omega
  set expected := dictSet (dictSet (dictSet r.properties ("gm".toList) ("1".toList))
    ("ff".toList) ("4".toList)) ("sz".toList) (intToChars n) with hexp
  have hkeysE : ∀ e ∈ expected, sgfKeyWf e.1 = true := by
    intro e he
    rcases mem_dictSet he with he1 | he1
    · rcases mem_dictSet he1 with he2 | he2
      · rcases mem_dictSet he2 with he3 | he3
        · exact hkeys e he3
        · rw [he3]; decide
      · rw [he2]; decide
    · rw [he1]
      show sgfKeyWf ("sz".toList) = true
      decide
  have hvalsE : ∀ e ∈ expected, sgfValWf e.2 = true := by
    intro e he
    rcases mem_dictSet he with he1 | he1
    · rcases mem_dictSet he1 with he2 | he2
      · rcases mem_dictSet he2 with he3 | he3
        · exact hvals e he3
        · rw [he3]; decide
      · rw [he2]; decide
    · rw [he1]
      show sgfValWf (intToChars n) = true
      exact sgfValWf_intToChars n
  have hndE : (expected.map Prod.fst).Nodup :=
    nodup_keys_dictSet (nodup_keys_dictSet (nodup_keys_dictSet hnd))
  set sorted := sortLe (fun a b => charListLe a.1 b.1) expected with hsorted
  have hpermS : sorted.Perm expected := sortLe_perm _ _
  have hkeysS : ∀ e ∈ sorted, sgfKeyWf e.1 = true :=
    fun e he => hkeysE e (hpermS.mem_iff.mp he)
  have hvalsS : ∀ e ∈ sorted, sgfValWf e.2 = true :=
    fun e he => hvalsE e (hpermS.mem_iff.mp he)
  have hndS : (sorted.map Prod.fst).Nodup :=
    ((hpermS.map Prod.fst).nodup_iff).mpr hndE
  have hprops0 : r.properties.foldl (fun d e => dictSet d e.1 e.2) [] = r.properties := by
    have h := foldl_dictSet_eq_append (fun k => k) r.properties []
      (fun _ _ => rfl) hnd (fun _ _ e' he' => absurd he' (List.not_mem_nil e'))
    simpa using h
  have hbytecheck : (r.moves.any fun m => is_valid_position m.pos n n &&
      (decide (255 < 97 + m.pos.1) || decide (255 < 97 + m.pos.2))) = false := by
    rw [List.any_eq_false]
    intro m hm
    by_cases hv : is_valid_position m.pos n n = true
    · have hb := hbyte m hm hv
      rw [hv]
      simp only [Bool.true_and, Bool.or_eq_true, decide_eq_true_eq]
      omega
    · simp only [Bool.not_eq_true] at hv
      rw [hv]
      simp
  have hdumps : recordDumps r = some ('(' :: ';' ::
      ((sorted.map (fun e => strUpper e.1 ++ ('[' :: (e.2 ++ [']'])))).flatten
        ++ ((r.moves.map (moveChunk n)).flatten ++ [')']))) := by
    unfold recordDumps
    rw [hsz]
    dsimp only
    rw [hprops0]
    rw [if_neg (by rw [hbytecheck]; simp)]
    rw [← hexp, ← hsorted, List.append_assoc]
  have hfoldS : sorted.foldl (fun acc e => dictSet acc e.1 e.2) [] = sorted := by
    have h := foldl_dictSet_eq_append (fun k => k) sorted []
      (fun _ _ => rfl) hndS (fun _ _ e' he' => absurd he' (List.not_mem_nil e'))
    simpa using h
  have hparse1 := parseSgfValues_printed sorted r.moves n hkeysS hvalsS hbyte
  rw [hfoldS] at hparse1
  have hfoldS2 : sorted.foldl (fun d e => dictSet d (strLower e.1) e.2) [] = sorted := by
    have h := foldl_dictSet_eq_append strLower sorted []
      (fun e he => strLower_of_keyWf (hkeysS e he)) hndS
      (fun _ _ e' he' => absurd he' (List.not_mem_nil e'))
    simpa using h
  have hszmem : (("sz".toList, intToChars n)) ∈ sorted :=
    hpermS.mem_iff.mpr (mem_dictSet_self _ _ _)
  have hget : dictGet sorted ("sz".toList) = some (intToChars n) :=
    dictGet_eq_some_of_nodup hndS hszmem
  have hparse2 : recordParse ('(' :: ';' ::
      ((sorted.map (fun e => strUpper e.1 ++ ('[' :: (e.2 ++ [']'])))).flatten
        ++ ((r.moves.map (moveChunk n)).flatten ++ [')'])))
      = some ⟨sorted, r.moves.map (normalizeMove n)⟩ := by
    unfold recordParse
    rw [hparse1]
    dsimp only
    rw [hfoldS2]
    rw [if_pos (dictHas_of_mem hszmem)]
    rw [hget]
    dsimp only [Option.getD]
    rw [parseIntChars_intToChars]
    dsimp only
    rw [List.filterMap_map]
    rw [filterMap_eq_map_of_forall_some (nodeToMove n ∘ moveNodeDict n)
      (normalizeMove n) r.moves
      (fun m hm => nodeToMove_moveNodeDict n m (hbyte m hm))]
  exact ⟨_, ⟨sorted, r.moves.map (normalizeMove n)⟩, hdumps, hparse2, hpermS, rfl⟩

/-- Witness for `sgf_roundtrip_amended`: the record with properties
`sz = "9"` and one Black move at `(0, 0)` dumps and re-parses to the
predicted properties and moves. -/
theorem sgf_roundtrip_amended_witness :
    ∃ s r',
      recordDumps ⟨[("sz".toList, "9".toList)], [⟨(0, 0), BLACK, none⟩]⟩ = some s ∧
      recordParse s = some r' ∧
      r'.properties.Perm
        (dictSet (dictSet (dictSet [("sz".toList, "9".toList)]
          ("gm".toList) ("1".toList))
          ("ff".toList) ("4".toList)) ("sz".toList) (intToChars 9)) ∧
      r'.moves = [(⟨(0, 0), BLACK, none⟩ : SgfMove)].map (normalizeMove 9) :=
  sgf_roundtrip_amended ⟨[("sz".toList, "9".toList)], [⟨(0, 0), BLACK, none⟩]⟩ 9
    (by decide) (by decide) (by decide) (by decide) (by decide)

/-- C7, counterexample to the claim as stated: parsing `"(;GM[2])"` yields a
record whose `gm` property is `"2"`, but `dumps` forcibly overwrites `gm`
with `"1"`, so re-parsing the dumped text yields `gm = "1"`: the
properties of the roundtripped record do not equal the original's. -/
theorem sgf_roundtrip_claim_false :
    ((recordParse ("(;GM[2])".toList)).bind (fun r0 =>
      (recordDumps r0).bind (fun s =>
        (recordParse s).map (fun r1 =>
          (dictGet r0.properties ("gm".toList),
           dictGet r1.properties ("gm".toList))))))
      = some (some ("2".toList), some ("1".toList)) := by decide
